import Mathlib

/-!
# felixge/term: the table renderer (`table.go`) and the terminal accessor (`term.go`)

A shallow embedding of `table.go` and `term.go` and the properties of the
rendering and sorting operations and of the accessors.

Modelling conventions.

* A Go `string` is an immutable byte sequence: `GoString := List UInt8`, and
  `len(s)` is `List.length`.
* Go's `int` is the 64-bit two's complement integer: a value is an `Int`
  between `intMin` and `intMax`, and the sum and the difference computed by
  `WriteTo` wrap around (`wrapInt`). `len(s)` is a `Nat`.
* `maxAlloc` is the size in bytes of the largest result `strings.Repeat` can
  allocate. It is a parameter of the rendering functions: at most the runtime
  constant of that name (`maxAlloc64`, 2^48, on 64-bit Linux), less on a machine
  short of memory. Asked for more, `strings.Repeat` panics.
* A run-time panic (index out of range, `strings.Repeat` with a negative count
  or a result that cannot be allocated) is `none`: the call does not return.
* A pointer receiver is passed in and, where the caller can observe it
  afterwards, returned.
* `io.Writer` and `sort.Sort` belong to the Go standard library. A writer is a
  state type with a `Write` function; a sorting routine is a strategy that
  only talks to `sort.Interface` (`Len`, `Less`, `Swap`).
-/

namespace Term

/-! ## Strings and errors -/

/-- A Go string: a sequence of bytes. -/
abbrev GoString := List UInt8

/-- The bytes (UTF-8) of a string literal. -/
def str (s : String) : GoString := s.data.flatMap String.utf8EncodeChar

/-- A non-nil Go `error` value, carrying its message; `nil` is `none`. -/
abbrev GoError := String

/-- The smallest value of Go's `int` on a 64-bit platform, `math.MinInt64`. -/
def intMin : Int := -9223372036854775808

/-- The largest value of Go's `int` on a 64-bit platform, `math.MaxInt64`. -/
def intMax : Int := 9223372036854775807

/-- The result of an `int` operation whose exact value is `x`: the value wraps
around in 64-bit two's complement. -/
def wrapInt (x : Int) : Int :=
  (x + 9223372036854775808) % 18446744073709551616 - 9223372036854775808

/-- The runtime constant `maxAlloc` on 64-bit Linux: 2^48 bytes. -/
def maxAlloc64 : Nat := 281474976710656

/-- The function `strings.Repeat(s, count)`. It panics when `count` is
negative, when `len(s) * count` overflows `int`, and when the `len(s) * count`
bytes of the result are more than the runtime can allocate (`maxAlloc`, which
`makeslice` checks). -/
def stringsRepeat (maxAlloc : Nat) (s : GoString) (count : Int) : Option GoString :=
  if count < 0 then none
  else if intMax < (s.length : Int) * count then none
  else if (maxAlloc : Int) < (s.length : Int) * count then none
  else some (List.replicate count.toNat s).flatten

/-! ## Writers -/

/-- An `io.Writer` with state `σ`: `Write(p)` returns the new state, the number
of bytes it took and an error (`none` for `nil`). -/
structure Writer (σ : Type) where
  Write : σ → GoString → σ × Int × Option GoError

/-- The function `io.WriteString(w, s)`: hands the bytes of `s` to the writer. -/
def ioWriteString {σ : Type} (W : Writer σ) (s : σ) (c : GoString) :
    σ × Int × Option GoError :=
  W.Write s c

/-- A writer that accepts every write, like `bytes.Buffer`: its state is the
bytes received so far. -/
def bufferWriter : Writer GoString where
  Write := fun buf p => (buf ++ p, (p.length : Int), none)

/-- A writer that accepts every write and keeps the payload of each `Write`
call apart, in call order. -/
def logWriter : Writer (List GoString) where
  Write := fun log p => (log ++ [p], (p.length : Int), none)

/-- A writer on which every write fails (a closed pipe): it takes no byte and
returns an error. The state counts the failed calls. -/
def brokenWriter : Writer Nat where
  Write := fun n _ => (n + 1, 0, some "write: broken pipe")

/-- The writer `W` accepts every write: with `received` reading off a state the
bytes received so far, each `Write` appends its whole payload, reports its
length and returns no error. -/
def Accepting {σ : Type} (W : Writer σ) (received : σ → GoString) : Prop :=
  ∀ s p, received (W.Write s p).1 = received s ++ p ∧
    (W.Write s p).2.1 = (p.length : Int) ∧ (W.Write s p).2.2 = none

/-! ## The table -/

/-- The struct `table`: rows of cells and the right padding. -/
structure table where
  rows : List (List GoString)
  padRight : Int
deriving DecidableEq

/-- The type `SortFunc`: whether row `a` should come before row `b`. -/
abbrev SortFunc := List GoString → List GoString → Bool

/-- The constructor `NewTable`. -/
def NewTable (rows : List (List GoString)) : table :=
  { rows := rows, padRight := 1 }

/-- The method `table.SetPadRight`. -/
def table.SetPadRight (t : table) (w : Int) : table :=
  { t with padRight := w }

/-! ### widths -/

/-- The inner loop of `widths`, `for i, c := range r`, from index `i` on. -/
def widthsCells : List Int → Nat → List GoString → Option (List Int)
  | widths, _, [] => some widths
  | widths, i, c :: cs =>
    let widths := if i ≥ widths.length then widths ++ [0] else widths
    match widths[i]? with
    | none => none
    | some w =>
      let widths := if (c.length : Int) > w then widths.set i (c.length : Int) else widths
      widthsCells widths (i + 1) cs

/-- The outer loop of `widths`, `for _, r := range t.rows`. -/
def widthsRows : List Int → List (List GoString) → Option (List Int)
  | widths, [] => some widths
  | widths, r :: rs => (widthsCells widths 0 r).bind fun widths => widthsRows widths rs

/-- The method `table.widths`. -/
def table.widths (t : table) : Option (List Int) :=
  widthsRows [] t.rows

/-! ### WriteTo -/

/-- The body of `for i, width := range widths` up to the write: the cell of
row `r` at column `i` (empty when the row is too short), padded with spaces to
`wantWidth`, the `int` sum `width + padRight`, when it is shorter than that. -/
def paddedCell (maxAlloc : Nat) (padRight : Int) (r : List GoString) (i : Nat) (width : Int) :
    Option GoString :=
  let c : GoString := if h : i < r.length then r[i] else []
  let wantWidth := wrapInt (width + padRight)
  if (c.length : Int) < wantWidth then
    (stringsRepeat maxAlloc (str " ") (wrapInt (wantWidth - (c.length : Int)))).map
      fun pad => c ++ pad
  else
    some c

/-- The inner loop of `WriteTo`, `for i, width := range widths`, from column
`i` on. The results of `io.WriteString` are dropped. -/
def writeCells {σ : Type} (maxAlloc : Nat) (W : Writer σ) (padRight : Int)
    (r : List GoString) : Nat → List Int → σ → Option σ
  | _, [], s => some s
  | i, width :: rest, s =>
    match paddedCell maxAlloc padRight r i width with
    | none => none
    | some c => writeCells maxAlloc W padRight r (i + 1) rest (ioWriteString W s c).1

/-- The outer loop of `WriteTo`, `for _, r := range t.rows`. -/
def writeRows {σ : Type} (maxAlloc : Nat) (W : Writer σ) (padRight : Int)
    (widths : List Int) : List (List GoString) → σ → Option σ
  | [], s => some s
  | r :: rs, s =>
    match writeCells maxAlloc W padRight r 0 widths s with
    | none => none
    | some s => writeRows maxAlloc W padRight widths rs (ioWriteString W s (str "\n")).1

/-- The result of a `WriteTo` call: the table and the writer after the call,
and the two returned values. -/
structure WriteResult (σ : Type) where
  tbl : table
  sink : σ
  n : Int
  err : Option GoError
deriving DecidableEq

/-- The method `table.WriteTo`, on a runtime that allocates at most `maxAlloc`
bytes for a padding. -/
def table.WriteTo {σ : Type} (maxAlloc : Nat) (t : table) (W : Writer σ) (s : σ) :
    Option (WriteResult σ) :=
  match t.widths with
  | none => none
  | some widths =>
    match writeRows maxAlloc W t.padRight widths t.rows s with
    | none => none
    | some s => some { tbl := t, sink := s, n := 0, err := none }

/-! ### Sort -/

/-- The struct `sortableRows`. -/
structure sortableRows where
  rows : List (List GoString)
  fn : SortFunc

/-- The method `sortableRows.Less`. -/
def sortableRows.Less (r : sortableRows) (i j : Nat) : Option Bool :=
  match r.rows[i]?, r.rows[j]? with
  | some a, some b => some (r.fn a b)
  | _, _ => none

/-- The method `sortableRows.Swap`. -/
def sortableRows.Swap (r : sortableRows) (i j : Nat) : Option sortableRows :=
  match r.rows[i]?, r.rows[j]? with
  | some a, some b => some { r with rows := (r.rows.set i b).set j a }
  | _, _ => none

/-- The method `sortableRows.Len`. -/
def sortableRows.Len (r : sortableRows) : Nat :=
  r.rows.length

/-- The interface `sort.Interface` over a state `σ`; a method that panics
returns `none`. -/
structure Interface (σ : Type) where
  Len : σ → Nat
  Less : σ → Nat → Nat → Option Bool
  Swap : σ → Nat → Nat → Option σ

/-- The type `*sortableRows` as a `sort.Interface`. -/
def sortableRows.asInterface : Interface sortableRows where
  Len := sortableRows.Len
  Less := sortableRows.Less
  Swap := sortableRows.Swap

/-- A slice with a comparison of its elements as a `sort.Interface`, as
`sort.IntSlice` and `sort.StringSlice` are. -/
def sliceInterface {α : Type} (lt : α → α → Bool) : Interface (List α) where
  Len := fun xs => xs.length
  Less := fun xs i j =>
    match xs[i]?, xs[j]? with
    | some a, some b => some (lt a b)
    | _, _ => none
  Swap := fun xs i j =>
    match xs[i]?, xs[j]? with
    | some a, some b => some ((xs.set i b).set j a)
    | _, _ => none

/-- What a sorting routine can do with its `sort.Interface` argument: stop,
ask `Less(i, j)` and go on according to the answer, or call `Swap(i, j)`. -/
inductive SortProg where
  | done : SortProg
  | less : Nat → Nat → (Bool → SortProg) → SortProg
  | swap : Nat → Nat → SortProg → SortProg

/-- Run a sorting strategy against a `sort.Interface` value. -/
def SortProg.run {σ : Type} (I : Interface σ) : SortProg → σ → Option σ
  | .done, s => some s
  | .less i j k, s =>
    match I.Less s i j with
    | none => none
    | some b => (k b).run I s
  | .swap i j k, s =>
    match I.Swap s i j with
    | none => none
    | some s => k.run I s

/-- The function `sort.Sort(data)` for a sorting routine `alg`: it reads
`data.Len()` and then only calls `Less` and `Swap`. -/
def sortSort {σ : Type} (alg : Nat → SortProg) (I : Interface σ) (data : σ) : Option σ :=
  (alg (I.Len data)).run I data

/-- The method `table.Sort`, with the routine behind `sort.Sort` as a
parameter. The rows slice of `s` shares its elements with `t.rows`. -/
def table.Sort (alg : Nat → SortProg) (t : table) (fn : SortFunc) : Option table :=
  let s : sortableRows := { rows := t.rows, fn := fn }
  match sortSort alg sortableRows.asInterface s with
  | none => none
  | some s => some { t with rows := s.rows }

/-! ## The terminal accessor (`term.go`) -/

/-- The struct `term`; `ω` is the type of `io.Writer` values. -/
structure term (ω : Type) where
  args : List GoString
  stdout : ω
  stderr : ω

/-- The slice expression `s[1:]`: panics when `s` is empty. -/
def sliceFromOne (s : List GoString) : Option (List GoString) :=
  if 1 ≤ s.length then some (s.drop 1) else none

/-- The variable `DefaultTerm`, initialised from the process's `os.Args`,
`os.Stdout` and `os.Stderr`. -/
def DefaultTerm {ω : Type} (osArgs : List GoString) (osStdout osStderr : ω) :
    Option (term ω) :=
  match sliceFromOne osArgs with
  | none => none
  | some args => some { args := args, stdout := osStdout, stderr := osStderr }

/-- The method `term.Args`, with the receiver after the call. -/
def term.Args {ω : Type} (t : term ω) : term ω × List GoString :=
  (t, t.args)

/-- The method `term.Stdout`, with the receiver after the call. -/
def term.Stdout {ω : Type} (t : term ω) : term ω × ω :=
  (t, t.stdout)

/-- The method `term.Stderr`, with the receiver after the call. -/
def term.Stderr {ω : Type} (t : term ω) : term ω × ω :=
  (t, t.stderr)

/-! ## Characters and checked loops -/

/-- The number of characters of a UTF-8 string: its bytes other than the
continuation bytes `0x80..0xBF`. -/
def runeCount (s : GoString) : Nat :=
  (s.filter fun b => decide (b.toNat / 64 ≠ 2)).length

/-- The inner loop of `widths` with the assertion `i <= len(widths)` checked
before the conditional append; a failed assertion is `none`. -/
def widthsCellsAsserted : List Int → Nat → List GoString → Option (List Int)
  | widths, _, [] => some widths
  | widths, i, c :: cs =>
    if i ≤ widths.length then
      let widths := if i ≥ widths.length then widths ++ [0] else widths
      match widths[i]? with
      | none => none
      | some w =>
        let widths := if (c.length : Int) > w then widths.set i (c.length : Int) else widths
        widthsCellsAsserted widths (i + 1) cs
    else
      none

/-- The outer loop of `widths` over the checked inner loop. -/
def widthsRowsAsserted : List Int → List (List GoString) → Option (List Int)
  | widths, [] => some widths
  | widths, r :: rs =>
    (widthsCellsAsserted widths 0 r).bind fun widths => widthsRowsAsserted widths rs

/-- The function `strings.Repeat` with the assertion that its count is
strictly positive; a failed assertion is `none`. -/
def stringsRepeatAsserted (maxAlloc : Nat) (s : GoString) (count : Int) : Option GoString :=
  if 0 < count then stringsRepeat maxAlloc s count else none

/-- The body of the inner loop of `WriteTo` with the call of `strings.Repeat`
checked for a strictly positive count. -/
def paddedCellAsserted (maxAlloc : Nat) (padRight : Int) (r : List GoString) (i : Nat)
    (width : Int) : Option GoString :=
  let c : GoString := if h : i < r.length then r[i] else []
  let wantWidth := wrapInt (width + padRight)
  if (c.length : Int) < wantWidth then
    (stringsRepeatAsserted maxAlloc (str " ") (wrapInt (wantWidth - (c.length : Int)))).map
      fun pad => c ++ pad
  else
    some c

/-- The inner loop of `WriteTo` over the checked loop body. -/
def writeCellsAsserted {σ : Type} (maxAlloc : Nat) (W : Writer σ) (padRight : Int)
    (r : List GoString) : Nat → List Int → σ → Option σ
  | _, [], s => some s
  | i, width :: rest, s =>
    match paddedCellAsserted maxAlloc padRight r i width with
    | none => none
    | some c => writeCellsAsserted maxAlloc W padRight r (i + 1) rest (ioWriteString W s c).1

/-- The outer loop of `WriteTo` over the checked inner loop. -/
def writeRowsAsserted {σ : Type} (maxAlloc : Nat) (W : Writer σ) (padRight : Int)
    (widths : List Int) : List (List GoString) → σ → Option σ
  | [], s => some s
  | r :: rs, s =>
    match writeCellsAsserted maxAlloc W padRight r 0 widths s with
    | none => none
    | some s =>
      writeRowsAsserted maxAlloc W padRight widths rs (ioWriteString W s (str "\n")).1

/-- The method `table.WriteTo` with both assertions checked: `i <= len(widths)`
in `widths()` and a strictly positive count at each `strings.Repeat`. -/
def table.WriteToAsserted {σ : Type} (maxAlloc : Nat) (t : table) (W : Writer σ) (s : σ) :
    Option (WriteResult σ) :=
  match widthsRowsAsserted [] t.rows with
  | none => none
  | some widths =>
    match writeRowsAsserted maxAlloc W t.padRight widths t.rows s with
    | none => none
    | some s => some { tbl := t, sink := s, n := 0, err := none }

/-! ## The contract of sort.Sort -/

/-- The sorting strategy only ever passes indices below `n` to `Less` and
`Swap`, as `sort.Sort` does with `n = data.Len()`. -/
def SortProg.inRange (n : Nat) : SortProg → Bool
  | .done => true
  | .less i j k => decide (i < n) && decide (j < n) && (k true).inRange n && (k false).inRange n
  | .swap i j k => decide (i < n) && decide (j < n) && k.inRange n

/-- A strict weak ordering: irreflexive, transitive, and with a transitive
incomparability relation. This is what `sort.Interface` asks of `Less`. -/
structure StrictWeakOrder {α : Type} (lt : α → α → Bool) : Prop where
  irrefl : ∀ a, lt a a = false
  trans : ∀ a b c, lt a b = true → lt b c = true → lt a c = true
  incomp_trans : ∀ a b c, lt a b = false → lt b a = false → lt b c = false → lt c b = false →
    lt a c = false ∧ lt c a = false

/-- The documented contract of `sort.Sort`, "Sort sorts data in ascending order
as determined by the Less method": on every slice whose `Less` is a strict weak
ordering of the elements the routine returns, and afterwards no element comes
before an element it is less than. -/
def SortsSlices (alg : Nat → SortProg) : Prop :=
  ∀ (α : Type) (lt : α → α → Bool), StrictWeakOrder lt → ∀ xs : List α,
    ∃ ys, sortSort alg (sliceInterface lt) xs = some ys ∧
      ys.Pairwise fun a b => lt b a = false

/-- The inner loop of the insertion sort of package `sort`,
`for j := i; j > 0 && data.Less(j, j-1); j-- { data.Swap(j, j-1) }`,
followed by `k`. -/
def insertionInner : Nat → SortProg → SortProg
  | 0, k => k
  | j + 1, k => .less (j + 1) j fun b => if b then .swap (j + 1) j (insertionInner j k) else k

/-- The outer loop of the insertion sort, `for i := 1; i < n; i++`, with `m`
iterations left. -/
def insertionOuter : Nat → Nat → SortProg
  | 0, _ => .done
  | m + 1, i => insertionInner i (insertionOuter m (i + 1))

/-- Insertion sort on `data[0:n]`, the routine `sort.Sort` runs on short
slices. -/
def insertionSort (n : Nat) : SortProg :=
  insertionOuter (n - 1) 1

/-- A comparator that is a strict weak ordering and not a total one: rows
ordered by their number of cells. -/
def fewerCells : SortFunc :=
  fun a b => decide (a.length < b.length)

/-- A comparator that is no ordering at all: it always answers yes. -/
def alwaysBefore : SortFunc :=
  fun _ _ => true

/-! ## The rendering in the words of the specification -/

/-- The number of columns: the maximum row length across the whole table. -/
def specColumns (rows : List (List GoString)) : Nat :=
  rows.foldr (fun r m => max r.length m) 0

/-- The width of column `i`: the maximum cell length at index `i` across all
rows; a row without a cell at `i` contributes nothing. -/
def specWidth (rows : List (List GoString)) (i : Nat) : Nat :=
  rows.foldr (fun r m => match r[i]? with
    | some c => max c.length m
    | none => m) 0

/-- The cell of row `r` at column `i`, the empty string when absent. -/
def specContent (r : List GoString) (i : Nat) : GoString :=
  match r[i]? with
  | some c => c
  | none => []

/-- The number of padding spaces after the cell of row `r` at column `i`:
`max(0, columnWidth + padRight - len(cellContent))`. -/
def specPad (rows : List (List GoString)) (padRight : Int) (r : List GoString) (i : Nat) : Nat :=
  (max 0 ((specWidth rows i : Int) + padRight - ((specContent r i).length : Int))).toNat

/-- The field of row `r` at column `i`: the cell content, then the padding. -/
def specField (rows : List (List GoString)) (padRight : Int) (r : List GoString) (i : Nat) :
    GoString :=
  specContent r i ++ List.replicate (specPad rows padRight r i) (32 : UInt8)

/-- The fields of row `r`, one for each column index from 0 to the number of
columns minus one. -/
def specFields (rows : List (List GoString)) (padRight : Int) (r : List GoString) :
    List GoString :=
  (List.range (specColumns rows)).map (specField rows padRight r)

/-- The line of row `r`: its fields, then a single newline. -/
def specLine (rows : List (List GoString)) (padRight : Int) (r : List GoString) : GoString :=
  (specFields rows padRight r).flatten ++ [(10 : UInt8)]

/-- The whole output: the lines of the rows in table order. -/
def specOutput (t : table) : GoString :=
  (t.rows.map (specLine t.rows t.padRight)).flatten

/-- The payloads of the writes of the whole table, in call order: for each
row its fields, one write each, then the newline. -/
def specWrites (t : table) : List GoString :=
  (t.rows.map fun r => specFields t.rows t.padRight r ++ [[(10 : UInt8)]]).flatten

/-- The padding of the table can be computed and allocated: for every column,
`width + padRight` is an `int` (the sum does not overflow) and is at most
`maxAlloc`. -/
def PadFits (maxAlloc : Nat) (t : table) : Prop :=
  ∀ i, i < specColumns t.rows →
    intMin ≤ (specWidth t.rows i : Int) + t.padRight ∧
    (specWidth t.rows i : Int) + t.padRight ≤ intMax ∧
    (specWidth t.rows i : Int) + t.padRight ≤ (maxAlloc : Int)

instance (maxAlloc : Nat) (t : table) : Decidable (PadFits maxAlloc t) := by
  unfold PadFits
  infer_instance

/-! ## The lines as the code computes them, and auxiliary definitions -/

/-- The line `WriteTo` writes for row `r`, given the widths: what the inner
loop of the code and the newline append to an empty buffer; `none` when the
loop panics. -/
def codeLine (maxAlloc : Nat) (padRight : Int) (widths : List Int) (r : List GoString) :
    Option GoString :=
  (writeCells maxAlloc bufferWriter padRight r 0 widths []).map fun line => line ++ str "\n"

/-- All the lines, when none is missing. -/
def collectLines : List (Option GoString) → Option (List GoString)
  | [] => some []
  | none :: _ => none
  | some line :: rest => (collectLines rest).map fun lines => line :: lines

/-- The writer state after `io.WriteString` was called with each of the given
payloads in turn, results dropped. -/
def writeAll {σ : Type} (W : Writer σ) (s : σ) (ps : List GoString) : σ :=
  ps.foldl (fun s p => (ioWriteString W s p).1) s

/-- One pass of the inner loop of `widths` as a function on lengths: the
running widths merged with the cell lengths of a row. -/
def mergeRow : List Nat → List GoString → List Nat
  | ws, [] => ws
  | [], c :: cs => c.length :: mergeRow [] cs
  | w :: ws, c :: cs => max w c.length :: mergeRow ws cs

/-- One run of the inner insertion loop on lists: `x` moves into the reversed
prefix `rp`, past the elements it is less than. -/
def insertRev {α : Type} (lt : α → α → Bool) (x : α) : List α → List α
  | [] => [x]
  | y :: rp => if lt x y then y :: insertRev lt x rp else x :: y :: rp

/-! ## widths -/

theorem widthsCells_eq (cs : List GoString) :
    ∀ (pre ws : List Nat),
      widthsCells ((pre ++ ws).map (Nat.cast : Nat → Int)) pre.length cs
        = some ((pre ++ mergeRow ws cs).map (Nat.cast : Nat → Int)) := by
  induction cs with
  | nil => intro pre ws; simp [widthsCells, mergeRow]
  | cons c cs ih =>
    intro pre ws
    cases ws with
    | nil =>
      have h := ih (pre ++ [c.length]) []
      simp only [List.append_nil, List.length_append, List.length_singleton, List.map_append,
        List.map_cons, List.map_nil, List.append_assoc, List.singleton_append] at h
      simp only [widthsCells, List.append_nil, List.length_map, ge_iff_le, le_refl, if_true,
        mergeRow, List.map_append, List.map_cons, List.append_assoc]
      have h0 : (List.map (Nat.cast : Nat → Int) pre ++ [(0 : Int)])[pre.length]? = some 0 := by
        rw [List.getElem?_append_right (by simp)]; simp
      rw [h0]
      simp only
      by_cases hc : (c.length : Int) > 0
      · rw [if_pos hc]
        have hs : (List.map (Nat.cast : Nat → Int) pre ++ [(0 : Int)]).set pre.length
            (c.length : Int) = List.map (Nat.cast : Nat → Int) pre ++ [(c.length : Int)] := by
          rw [List.set_append_right _ _ (by simp)]; simp
        rw [hs]; exact h
      · rw [if_neg hc]
        have hz : c.length = 0 := by omega
        rw [hz] at h ⊢
        simpa using h
    | cons w ws =>
      have h := ih (pre ++ [max w c.length]) ws
      simp only [List.length_append, List.length_singleton, List.map_append,
        List.map_cons, List.map_nil, List.append_assoc, List.singleton_append] at h
      simp only [widthsCells, List.length_map, List.length_append, List.length_cons, ge_iff_le,
        mergeRow, List.map_append, List.map_cons]
      rw [if_neg (by omega)]
      have h0 : (List.map (Nat.cast : Nat → Int) pre
          ++ (w : Int) :: List.map (Nat.cast : Nat → Int) ws)[pre.length]? = some (w : Int) := by
        rw [List.getElem?_append_right (by simp)]; simp
      rw [h0]
      simp only
      by_cases hc : (c.length : Int) > (w : Int)
      · rw [if_pos hc]
        have hs : (List.map (Nat.cast : Nat → Int) pre
            ++ (w : Int) :: List.map (Nat.cast : Nat → Int) ws).set pre.length (c.length : Int)
            = List.map (Nat.cast : Nat → Int) pre
              ++ (c.length : Int) :: List.map (Nat.cast : Nat → Int) ws := by
          rw [List.set_append_right _ _ (by simp)]; simp
        rw [hs]
        have hm : max w c.length = c.length := by omega
        rw [hm] at h ⊢; exact h
      · rw [if_neg hc]
        have hm : max w c.length = w := by omega
        rw [hm] at h ⊢; exact h

theorem widthsRows_eq (rows : List (List GoString)) :
    ∀ ws : List Nat,
      widthsRows (ws.map (Nat.cast : Nat → Int)) rows
        = some ((rows.foldl mergeRow ws).map (Nat.cast : Nat → Int)) := by
  induction rows with
  | nil => intro ws; simp [widthsRows]
  | cons r rs ih =>
    intro ws
    have h := widthsCells_eq r [] ws
    simp only [List.nil_append, List.length_nil] at h
    simp only [widthsRows, h, Option.some_bind, List.foldl_cons]
    exact ih _

theorem mergeRow_length (r : List GoString) :
    ∀ ws : List Nat, (mergeRow ws r).length = max ws.length r.length := by
  induction r with
  | nil => intro ws; simp [mergeRow]
  | cons c cs ih =>
    intro ws
    cases ws with
    | nil => have := ih []; simp [mergeRow] at this ⊢; omega
    | cons w ws => have := ih ws; simp [mergeRow] at this ⊢; omega

theorem specContent_nil (i : Nat) : specContent [] i = [] := by
  simp [specContent]

theorem specContent_cons_zero (c : GoString) (cs : List GoString) :
    specContent (c :: cs) 0 = c := by
  simp [specContent]

theorem specContent_cons_succ (c : GoString) (cs : List GoString) (i : Nat) :
    specContent (c :: cs) (i + 1) = specContent cs i := by
  simp [specContent]

theorem mergeRow_getD (r : List GoString) :
    ∀ (ws : List Nat) (i : Nat),
      (mergeRow ws r).getD i 0 = max (ws.getD i 0) (specContent r i).length := by
  induction r with
  | nil => intro ws i; simp [mergeRow, specContent_nil]
  | cons c cs ih =>
    intro ws i
    cases ws with
    | nil =>
      cases i with
      | zero => simp [mergeRow, specContent_cons_zero]
      | succ i => have := ih [] i; simpa [mergeRow, specContent_cons_succ] using this
    | cons w ws =>
      cases i with
      | zero => simp [mergeRow, specContent_cons_zero]
      | succ i => have := ih ws i; simpa [mergeRow, specContent_cons_succ] using this

theorem specColumns_cons (r : List GoString) (rs : List (List GoString)) :
    specColumns (r :: rs) = max r.length (specColumns rs) := rfl

theorem specWidth_cons (r : List GoString) (rs : List (List GoString)) (i : Nat) :
    specWidth (r :: rs) i = max (specContent r i).length (specWidth rs i) := by
  show (match r[i]? with
    | some c => max c.length (specWidth rs i)
    | none => specWidth rs i) = _
  unfold specContent
  cases r[i]? <;> simp

theorem foldl_mergeRow_length (rows : List (List GoString)) :
    ∀ ws : List Nat, (rows.foldl mergeRow ws).length = max ws.length (specColumns rows) := by
  induction rows with
  | nil => intro ws; simp [specColumns]
  | cons r rs ih =>
    intro ws
    rw [List.foldl_cons, ih, mergeRow_length, specColumns_cons, max_assoc]

theorem foldl_mergeRow_getD (rows : List (List GoString)) (i : Nat) :
    ∀ ws : List Nat, (rows.foldl mergeRow ws).getD i 0 = max (ws.getD i 0) (specWidth rows i) := by
  induction rows with
  | nil => intro ws; simp [specWidth]
  | cons r rs ih =>
    intro ws
    rw [List.foldl_cons, ih, mergeRow_getD, specWidth_cons, max_assoc]

/-- The widths in the words of the specification: one entry for each column,
the width of that column. -/
theorem foldl_mergeRow_eq (rows : List (List GoString)) :
    rows.foldl mergeRow [] = (List.range (specColumns rows)).map (specWidth rows) := by
  apply List.ext_getElem
  · simp [foldl_mergeRow_length]
  · intro i h1 h2
    have h := foldl_mergeRow_getD rows i []
    rw [List.getD_eq_getElem _ _ h1] at h
    simp [h]

theorem widths_eq (t : table) :
    t.widths = some ((List.range (specColumns t.rows)).map fun i => (specWidth t.rows i : Int)) := by
  have h := widthsRows_eq t.rows []
  simp only [List.map_nil] at h
  rw [table.widths, h, foldl_mergeRow_eq, List.map_map]
  rfl

theorem length_le_specColumns (rows : List (List GoString)) :
    ∀ r ∈ rows, r.length ≤ specColumns rows := by
  induction rows with
  | nil => intro r h; cases h
  | cons a rs ih =>
    intro r h
    rw [specColumns_cons]
    rcases List.mem_cons.mp h with h | h
    · subst h; exact le_max_left _ _
    · exact le_trans (ih r h) (le_max_right _ _)

theorem specColumns_attained (rows : List (List GoString)) :
    specColumns rows = 0 ∨ ∃ r ∈ rows, r.length = specColumns rows := by
  induction rows with
  | nil => left; rfl
  | cons a rs ih =>
    rw [specColumns_cons]
    rcases le_total a.length (specColumns rs) with h | h
    · rw [max_eq_right h]
      rcases ih with h0 | ⟨r, hr, hlen⟩
      · left; exact h0
      · right; exact ⟨r, List.mem_cons_of_mem _ hr, hlen⟩
    · rw [max_eq_left h]
      right; exact ⟨a, List.mem_cons_self _ _, rfl⟩

theorem length_le_specWidth (rows : List (List GoString)) (i : Nat) :
    ∀ r ∈ rows, ∀ c, r[i]? = some c → c.length ≤ specWidth rows i := by
  induction rows with
  | nil => intro r h; cases h
  | cons a rs ih =>
    intro r h c hc
    rw [specWidth_cons]
    rcases List.mem_cons.mp h with h | h
    · subst h
      have : specContent r i = c := by simp [specContent, hc]
      rw [this]; exact le_max_left _ _
    · exact le_trans (ih r h c hc) (le_max_right _ _)

theorem specContent_of_le (r : List GoString) (i : Nat) (h : r.length ≤ i) :
    specContent r i = [] := by
  simp [specContent, List.getElem?_eq_none h]

theorem specContent_of_lt (r : List GoString) (i : Nat) (h : i < r.length) :
    specContent r i = r[i] := by
  simp [specContent, List.getElem?_eq_getElem h]

theorem specWidth_eq_zero (rows : List (List GoString)) (i : Nat) :
    specColumns rows ≤ i → specWidth rows i = 0 := by
  induction rows with
  | nil => intro _; rfl
  | cons a rs ih =>
    intro h
    rw [specColumns_cons] at h
    have ha : a.length ≤ i := le_trans (le_max_left _ _) h
    have hr : specColumns rs ≤ i := le_trans (le_max_right _ _) h
    rw [specWidth_cons, ih hr, specContent_of_le a i ha]
    rfl

theorem specWidth_attained (rows : List (List GoString)) (i : Nat) :
    i < specColumns rows → ∃ r ∈ rows, ∃ c, r[i]? = some c ∧ c.length = specWidth rows i := by
  induction rows with
  | nil => intro h; simp [specColumns] at h
  | cons a rs ih =>
    intro h
    rw [specColumns_cons] at h
    rw [specWidth_cons]
    by_cases hlt : i < a.length
    · rcases le_total (specContent a i).length (specWidth rs i) with hle | hle
      · by_cases hrs : i < specColumns rs
        · rw [max_eq_right hle]
          obtain ⟨r, hr, c, hc, hlen⟩ := ih hrs
          exact ⟨r, List.mem_cons_of_mem _ hr, c, hc, hlen⟩
        · have h0 := specWidth_eq_zero rs i (by omega)
          rw [h0] at hle ⊢
          rw [max_eq_left (Nat.zero_le _)]
          exact ⟨a, List.mem_cons_self _ _, a[i], List.getElem?_eq_getElem hlt,
            by rw [specContent_of_lt a i hlt]⟩
      · rw [max_eq_left hle]
        exact ⟨a, List.mem_cons_self _ _, a[i], List.getElem?_eq_getElem hlt,
          by rw [specContent_of_lt a i hlt]⟩
    · have hrs : i < specColumns rs := by
        rcases lt_max_iff.mp h with h | h
        · exact absurd h hlt
        · exact h
      obtain ⟨r, hr, c, hc, hlen⟩ := ih hrs
      have h0 : specContent a i = [] := specContent_of_le a i (by omega)
      rw [h0, List.length_nil, max_eq_right (Nat.zero_le _)]
      exact ⟨r, List.mem_cons_of_mem _ hr, c, hc, hlen⟩


/-! ## WriteTo -/

theorem wrapInt_eq (x : Int) (h₁ : intMin ≤ x) (h₂ : x ≤ intMax) : wrapInt x = x := by
  unfold intMin at h₁
  unfold intMax at h₂
  unfold wrapInt
  omega

theorem str_space : str " " = [(32 : UInt8)] := by decide

theorem str_newline : str "\n" = [(10 : UInt8)] := by decide

theorem flatten_replicate_singleton (n : Nat) (b : UInt8) :
    (List.replicate n [b]).flatten = List.replicate n b := by
  induction n with
  | zero => rfl
  | succ n ih => simp [List.replicate_succ, ih]

theorem stringsRepeat_space (maxAlloc : Nat) (count : Int) (h₀ : 0 ≤ count)
    (h₁ : count ≤ intMax) (h₂ : count ≤ (maxAlloc : Int)) :
    stringsRepeat maxAlloc (str " ") count = some (List.replicate count.toNat (32 : UInt8)) := by
  have hlen : (((str " ").length : Nat) : Int) * count = count := by
    rw [str_space]; simp
  rw [stringsRepeat, if_neg (by omega), hlen, if_neg (by omega), if_neg (by omega), str_space,
    flatten_replicate_singleton]

theorem content_eq (r : List GoString) (i : Nat) :
    (if h : i < r.length then r[i] else ([] : GoString)) = specContent r i := by
  by_cases h : i < r.length
  · rw [dif_pos h, specContent_of_lt r i h]
  · rw [dif_neg h, specContent_of_le r i (by omega)]

theorem paddedCell_eq (maxAlloc : Nat) (rows : List (List GoString)) (padRight : Int)
    (r : List GoString) (i : Nat)
    (h₁ : intMin ≤ (specWidth rows i : Int) + padRight)
    (h₂ : (specWidth rows i : Int) + padRight ≤ intMax)
    (h₃ : (specWidth rows i : Int) + padRight ≤ (maxAlloc : Int)) :
    paddedCell maxAlloc padRight r i (specWidth rows i : Int)
      = some (specField rows padRight r i) := by
  simp only [paddedCell, content_eq, specField, specPad, wrapInt_eq _ h₁ h₂]
  by_cases hlt : ((specContent r i).length : Int) < (specWidth rows i : Int) + padRight
  · have hmin : intMin ≤ 0 := by decide
    rw [if_pos hlt, wrapInt_eq _ (by omega) (by omega),
      stringsRepeat_space maxAlloc _ (by omega) (by omega) (by omega), max_eq_right (by omega)]
    rfl
  · rw [if_neg hlt, max_eq_left (by omega)]
    simp

theorem writeCells_eq {σ : Type} (maxAlloc : Nat) (W : Writer σ) (rows : List (List GoString))
    (padRight : Int) (r : List GoString) (n : Nat) :
    ∀ (i : Nat) (s : σ),
      (∀ k, i ≤ k → k < i + n →
        intMin ≤ (specWidth rows k : Int) + padRight ∧
        (specWidth rows k : Int) + padRight ≤ intMax ∧
        (specWidth rows k : Int) + padRight ≤ (maxAlloc : Int)) →
      writeCells maxAlloc W padRight r i
          ((List.range' i n).map fun k => (specWidth rows k : Int)) s
        = some (writeAll W s ((List.range' i n).map (specField rows padRight r))) := by
  induction n with
  | zero => intro i s _; simp [writeCells, writeAll]
  | succ n ih =>
    intro i s h
    obtain ⟨h₁, h₂, h₃⟩ := h i (le_refl _) (by omega)
    simp only [List.range'_succ, List.map_cons, writeCells,
      paddedCell_eq maxAlloc rows padRight r i h₁ h₂ h₃, writeAll, List.foldl_cons]
    exact ih (i + 1) _ (fun k hk hlt => h k (by omega) (by omega))

theorem writeAll_append {σ : Type} (W : Writer σ) (s : σ) (ps qs : List GoString) :
    writeAll W s (ps ++ qs) = writeAll W (writeAll W s ps) qs := by
  simp [writeAll, List.foldl_append]

theorem writeRows_eq {σ : Type} (maxAlloc : Nat) (W : Writer σ) (t : table)
    (hfits : PadFits maxAlloc t) (rs : List (List GoString)) :
    ∀ s : σ,
      writeRows maxAlloc W t.padRight
          ((List.range (specColumns t.rows)).map fun k => (specWidth t.rows k : Int)) rs s
        = some (writeAll W s
            (rs.map fun r => specFields t.rows t.padRight r ++ [[(10 : UInt8)]]).flatten) := by
  induction rs with
  | nil => intro s; simp [writeRows, writeAll]
  | cons r rs ih =>
    intro s
    have h := writeCells_eq maxAlloc W t.rows t.padRight r (specColumns t.rows) 0 s
      (fun k _ hk => hfits k (by omega))
    rw [← List.range_eq_range'] at h
    simp only [writeRows, h, str_newline, List.map_cons, List.flatten_cons, writeAll_append]
    rw [ih]
    rfl

/-- When the padding fits, `WriteTo` calls `io.WriteString` with the payloads of
`specWrites` in turn and returns `0, nil`. -/
theorem WriteTo_eq {σ : Type} (maxAlloc : Nat) (t : table) (hfits : PadFits maxAlloc t)
    (W : Writer σ) (s : σ) :
    t.WriteTo maxAlloc W s
      = some { tbl := t, sink := writeAll W s (specWrites t), n := 0, err := none } := by
  simp only [table.WriteTo, widths_eq, writeRows_eq maxAlloc W t hfits, specWrites]

/-- Whenever `WriteTo` returns, the table is the one it was called on and the
values returned are `0, nil`. -/
theorem WriteTo_some {σ : Type} (maxAlloc : Nat) (t : table) (W : Writer σ) (s : σ)
    (res : WriteResult σ) (h : t.WriteTo maxAlloc W s = some res) :
    res.tbl = t ∧ res.n = 0 ∧ res.err = none := by
  simp only [table.WriteTo, widths_eq] at h
  cases hr : writeRows maxAlloc W t.padRight
      ((List.range (specColumns t.rows)).map fun i => (specWidth t.rows i : Int)) t.rows s with
  | none => rw [hr] at h; cases h
  | some s₁ =>
    rw [hr] at h
    cases h
    exact ⟨rfl, rfl, rfl⟩

theorem flatten_writes (f : List GoString → List GoString) (rs : List (List GoString)) :
    (rs.map fun r => f r ++ [[(10 : UInt8)]]).flatten.flatten
      = (rs.map fun r => (f r).flatten ++ [(10 : UInt8)]).flatten := by
  induction rs with
  | nil => rfl
  | cons r rs ih => simp [ih]

theorem specWrites_flatten (t : table) : (specWrites t).flatten = specOutput t := by
  simp only [specWrites, specOutput]
  exact flatten_writes (specFields t.rows t.padRight) t.rows

theorem received_writeAll {σ : Type} (W : Writer σ) (received : σ → GoString)
    (hW : Accepting W received) (ps : List GoString) :
    ∀ s : σ, received (writeAll W s ps) = received s ++ ps.flatten := by
  induction ps with
  | nil => intro s; simp [writeAll]
  | cons p ps ih =>
    intro s
    have h := ih (ioWriteString W s p).1
    simp only [writeAll, List.foldl_cons, List.flatten_cons] at h ⊢
    rw [h, ioWriteString, (hW s p).1, List.append_assoc]

theorem accepting_bufferWriter : Accepting bufferWriter id := by
  intro s p; simp [bufferWriter]

theorem accepting_logWriter : Accepting logWriter List.flatten := by
  intro s p; simp [logWriter]

theorem writeAll_logWriter (ps : List GoString) :
    ∀ log : List GoString, writeAll logWriter log ps = log ++ ps := by
  induction ps with
  | nil => intro log; simp [writeAll]
  | cons p ps ih =>
    intro log
    have h := ih (log ++ [p])
    simp only [writeAll, List.foldl_cons] at h ⊢
    simpa [ioWriteString, logWriter] using h

theorem specContent_length_le (rows : List (List GoString)) (r : List GoString)
    (hr : r ∈ rows) (i : Nat) : (specContent r i).length ≤ specWidth rows i := by
  by_cases h : i < r.length
  · rw [specContent_of_lt r i h]
    exact length_le_specWidth rows i r hr r[i] (List.getElem?_eq_getElem h)
  · rw [specContent_of_le r i (by omega)]
    exact Nat.zero_le _

theorem specField_length (rows : List (List GoString)) (padRight : Int) (hpad : 0 ≤ padRight)
    (r : List GoString) (hr : r ∈ rows) (i : Nat) :
    (specField rows padRight r i).length = ((specWidth rows i : Int) + padRight).toNat := by
  have h := specContent_length_le rows r hr i
  simp only [specField, specPad, List.length_append, List.length_replicate]
  omega

theorem specFields_length (rows : List (List GoString)) (padRight : Int) (r : List GoString) :
    (specFields rows padRight r).length = specColumns rows := by
  simp [specFields]

theorem specLine_length (rows : List (List GoString)) (padRight : Int) (hpad : 0 ≤ padRight)
    (r : List GoString) (hr : r ∈ rows) :
    (specLine rows padRight r).length
      = ((List.range (specColumns rows)).map fun i =>
          ((specWidth rows i : Int) + padRight).toNat).sum + 1 := by
  simp only [specLine, specFields, List.length_append, List.length_flatten, List.map_map,
    List.length_singleton]
  congr 2
  apply List.map_congr_left
  intro i _
  exact specField_length rows padRight hpad r hr i

theorem not_mem_specField (rows : List (List GoString)) (padRight : Int) (r : List GoString)
    (hr : ∀ c ∈ r, (10 : UInt8) ∉ c) (i : Nat) :
    (10 : UInt8) ∉ specField rows padRight r i := by
  intro hmem
  rcases List.mem_append.mp hmem with h | h
  · by_cases hi : i < r.length
    · rw [specContent_of_lt r i hi] at h
      exact hr _ (List.getElem_mem hi) h
    · rw [specContent_of_le r i (by omega)] at h
      cases h
  · have := (List.mem_replicate.mp h).2
    exact absurd this (by decide)

theorem count_specLine (rows : List (List GoString)) (padRight : Int) (r : List GoString)
    (hr : ∀ c ∈ r, (10 : UInt8) ∉ c) :
    (specLine rows padRight r).count (10 : UInt8) = 1 := by
  have h0 : (specFields rows padRight r).flatten.count (10 : UInt8) = 0 := by
    apply List.count_eq_zero_of_not_mem
    intro hmem
    obtain ⟨f, hf, h10⟩ := List.mem_flatten.mp hmem
    obtain ⟨i, _, rfl⟩ := List.mem_map.mp hf
    exact not_mem_specField rows padRight r hr i h10
  rw [specLine, List.count_append, h0]
  rfl

theorem count_lines (rows : List (List GoString)) (padRight : Int) (rs : List (List GoString)) :
    (∀ r ∈ rs, ∀ c ∈ r, (10 : UInt8) ∉ c) →
      (rs.map (specLine rows padRight)).flatten.count (10 : UInt8) = rs.length := by
  induction rs with
  | nil => intro _; rfl
  | cons r rs ih =>
    intro h
    rw [List.map_cons, List.flatten_cons, List.count_append,
      count_specLine rows padRight r (h r (List.mem_cons_self _ _)),
      ih (fun r' hr' => h r' (List.mem_cons_of_mem _ hr')), List.length_cons]
    omega

/-! ## WriteTo on any accepting writer, and line by line -/

theorem writeCells_received {σ : Type} (maxAlloc : Nat) (W : Writer σ)
    (received : σ → GoString) (hW : Accepting W received) (padRight : Int)
    (r : List GoString) (ws : List Int) :
    ∀ (i : Nat) (s : σ),
      (writeCells maxAlloc W padRight r i ws s).map received
        = writeCells maxAlloc bufferWriter padRight r i ws (received s) := by
  induction ws with
  | nil => intro i s; rfl
  | cons w ws ih =>
    intro i s
    simp only [writeCells]
    cases paddedCell maxAlloc padRight r i w with
    | none => rfl
    | some c =>
      simp only
      rw [ih, ioWriteString, (hW s c).1]
      rfl

theorem writeRows_received {σ : Type} (maxAlloc : Nat) (W : Writer σ)
    (received : σ → GoString) (hW : Accepting W received) (padRight : Int) (ws : List Int)
    (rs : List (List GoString)) :
    ∀ s : σ,
      (writeRows maxAlloc W padRight ws rs s).map received
        = writeRows maxAlloc bufferWriter padRight ws rs (received s) := by
  induction rs with
  | nil => intro s; rfl
  | cons r rs ih =>
    intro s
    have h := writeCells_received maxAlloc W received hW padRight r ws 0 s
    simp only [writeRows]
    cases h₁ : writeCells maxAlloc W padRight r 0 ws s with
    | none =>
      rw [h₁] at h
      rw [← h]
      rfl
    | some s₁ =>
      rw [h₁] at h
      rw [← h]
      simp only [Option.map_some']
      rw [ih, ioWriteString, (hW s₁ (str "\n")).1]
      rfl

/-- What a writer that accepts every write receives from `WriteTo` is what
a buffer holding the bytes received before receives. -/
theorem WriteTo_received {σ : Type} (maxAlloc : Nat) (t : table) (W : Writer σ)
    (received : σ → GoString) (hW : Accepting W received) (s : σ) :
    (t.WriteTo maxAlloc W s).map (fun res => received res.sink)
      = (t.WriteTo maxAlloc bufferWriter (received s)).map fun res => res.sink := by
  have h := writeRows_received maxAlloc W received hW t.padRight
    ((List.range (specColumns t.rows)).map fun i => (specWidth t.rows i : Int)) t.rows s
  simp only [table.WriteTo, widths_eq]
  cases h₁ : writeRows maxAlloc W t.padRight
      ((List.range (specColumns t.rows)).map fun i => (specWidth t.rows i : Int)) t.rows s with
  | none => rw [h₁] at h; rw [← h]; rfl
  | some s₁ => rw [h₁] at h; rw [← h]; rfl

theorem ioWriteString_bufferWriter (s c : GoString) :
    (ioWriteString bufferWriter s c).1 = s ++ c := rfl

theorem writeCells_buffer (maxAlloc : Nat) (padRight : Int) (r : List GoString)
    (ws : List Int) :
    ∀ (i : Nat) (s : GoString),
      writeCells maxAlloc bufferWriter padRight r i ws s
        = (writeCells maxAlloc bufferWriter padRight r i ws []).map fun out => s ++ out := by
  induction ws with
  | nil => intro i s; simp [writeCells]
  | cons w ws ih =>
    intro i s
    simp only [writeCells]
    cases paddedCell maxAlloc padRight r i w with
    | none => rfl
    | some c =>
      simp only [ioWriteString_bufferWriter, List.nil_append]
      rw [ih (i + 1) (s ++ c), ih (i + 1) c, Option.map_map]
      congr 1
      funext out
      simp

theorem writeRows_lines (maxAlloc : Nat) (padRight : Int) (ws : List Int)
    (rs : List (List GoString)) :
    ∀ s : GoString,
      writeRows maxAlloc bufferWriter padRight ws rs s
        = (collectLines (rs.map (codeLine maxAlloc padRight ws))).map
            fun lines => s ++ lines.flatten := by
  induction rs with
  | nil => intro s; simp [writeRows, collectLines]
  | cons r rs ih =>
    intro s
    simp only [writeRows, List.map_cons, codeLine]
    rw [writeCells_buffer maxAlloc padRight r ws 0 s]
    cases writeCells maxAlloc bufferWriter padRight r 0 ws [] with
    | none => rfl
    | some line =>
      simp only [Option.map_some', collectLines, ioWriteString_bufferWriter]
      rw [ih, Option.map_map]
      congr 1
      funext lines
      simp

/-- The bytes `WriteTo` appends to a buffer are the lines of the rows, one
after the other; it returns when no line panics. -/
theorem WriteTo_lines (maxAlloc : Nat) (t : table) (s : GoString) :
    (t.WriteTo maxAlloc bufferWriter s).map (fun res => res.sink)
      = (collectLines (t.rows.map (codeLine maxAlloc t.padRight
          ((List.range (specColumns t.rows)).map fun i => (specWidth t.rows i : Int))))).map
            fun lines => s ++ lines.flatten := by
  rw [← writeRows_lines]
  simp only [table.WriteTo, widths_eq]
  cases writeRows maxAlloc bufferWriter t.padRight
      ((List.range (specColumns t.rows)).map fun i => (specWidth t.rows i : Int)) t.rows s with
  | none => rfl
  | some s₁ => rfl

theorem stringsRepeat_some (maxAlloc : Nat) (x : GoString) (count : Int) (pad : GoString)
    (h : stringsRepeat maxAlloc x count = some pad) :
    pad = (List.replicate count.toNat x).flatten := by
  unfold stringsRepeat at h
  split at h
  · cases h
  · split at h
    · cases h
    · split at h
      · cases h
      · exact (Option.some.inj h).symm

/-- A field `WriteTo` writes is the cell followed by spaces only. -/
theorem paddedCell_shape (maxAlloc : Nat) (padRight : Int) (r : List GoString) (i : Nat)
    (w : Int) (f : GoString) (h : paddedCell maxAlloc padRight r i w = some f) :
    ∃ n, f = specContent r i ++ List.replicate n (32 : UInt8) := by
  simp only [paddedCell, content_eq] at h
  split at h
  · cases hrep : stringsRepeat maxAlloc (str " ")
        (wrapInt (wrapInt (w + padRight) - ((specContent r i).length : Int))) with
    | none => rw [hrep] at h; cases h
    | some pad =>
      rw [hrep] at h
      have hpad := stringsRepeat_some maxAlloc _ _ pad hrep
      rw [str_space, flatten_replicate_singleton] at hpad
      exact ⟨_, by rw [← Option.some.inj h, hpad]⟩
  · exact ⟨0, by rw [← Option.some.inj h]; simp⟩

theorem count_writeCells (maxAlloc : Nat) (padRight : Int) (r : List GoString)
    (hr : ∀ c ∈ r, (10 : UInt8) ∉ c) (ws : List Int) :
    ∀ (i : Nat) (s out : GoString),
      writeCells maxAlloc bufferWriter padRight r i ws s = some out →
        out.count (10 : UInt8) = s.count (10 : UInt8) := by
  induction ws with
  | nil =>
    intro i s out h
    simp only [writeCells] at h
    rw [← Option.some.inj h]
  | cons w ws ih =>
    intro i s out h
    simp only [writeCells] at h
    cases hc : paddedCell maxAlloc padRight r i w with
    | none => rw [hc] at h; cases h
    | some c =>
      rw [hc] at h
      obtain ⟨n, hn⟩ := paddedCell_shape maxAlloc padRight r i w c hc
      have h0 : c.count (10 : UInt8) = 0 := by
        apply List.count_eq_zero_of_not_mem
        rw [hn]
        intro hmem
        rcases List.mem_append.mp hmem with hm | hm
        · by_cases hi : i < r.length
          · rw [specContent_of_lt r i hi] at hm
            exact hr _ (List.getElem_mem hi) hm
          · rw [specContent_of_le r i (by omega)] at hm
            cases hm
        · exact absurd (List.mem_replicate.mp hm).2 (by decide)
      rw [ih (i + 1) _ out h, ioWriteString_bufferWriter, List.count_append, h0]
      rfl

theorem count_collectLines (maxAlloc : Nat) (padRight : Int) (ws : List Int)
    (rs : List (List GoString)) :
    (∀ r ∈ rs, ∀ c ∈ r, (10 : UInt8) ∉ c) →
      ∀ lines, collectLines (rs.map (codeLine maxAlloc padRight ws)) = some lines →
        lines.flatten.count (10 : UInt8) = rs.length := by
  induction rs with
  | nil =>
    intro _ lines h
    simp only [List.map_nil, collectLines] at h
    rw [← Option.some.inj h]
    rfl
  | cons r rs ih =>
    intro hcells lines h
    simp only [List.map_cons, codeLine] at h
    cases hline : writeCells maxAlloc bufferWriter padRight r 0 ws [] with
    | none => rw [hline] at h; cases h
    | some line =>
      rw [hline] at h
      simp only [Option.map_some', collectLines] at h
      cases hrest : collectLines (rs.map (codeLine maxAlloc padRight ws)) with
      | none => rw [hrest] at h; cases h
      | some rest =>
        rw [hrest] at h
        have hl := count_writeCells maxAlloc padRight r (hcells r (List.mem_cons_self _ _)) ws
          0 [] line hline
        have hr := ih (fun q hq => hcells q (List.mem_cons_of_mem _ hq)) rest hrest
        rw [← Option.some.inj h]
        simp only [List.flatten_cons, List.count_append, hl, hr, str_newline, List.length_cons]
        simp
        omega

/-! ## The claims about widths and WriteTo -/

/-- C2: `widths()` returns a list whose length is the maximum row length over
all rows (no row is longer, and unless the length is 0 some row has exactly that
length) and whose entry `i` is the maximum of `len(r[i])` over the rows `r` that
have a cell at index `i`: every such cell is at most that long and one of them
is exactly that long. It is the list of the column widths of the
specification. -/
theorem widths_spec (t : table) :
    ∃ ws, t.widths = some ws ∧
      ws.length = specColumns t.rows ∧
      (∀ r ∈ t.rows, r.length ≤ ws.length) ∧
      (ws.length = 0 ∨ ∃ r ∈ t.rows, r.length = ws.length) ∧
      ∀ i w, ws[i]? = some w →
        w = (specWidth t.rows i : Int) ∧
        (∀ r ∈ t.rows, ∀ c, r[i]? = some c → (c.length : Int) ≤ w) ∧
        ∃ r ∈ t.rows, ∃ c, r[i]? = some c ∧ (c.length : Int) = w := by
  refine ⟨_, widths_eq t, by simp, ?_, ?_, ?_⟩
  · intro r hr
    simpa using length_le_specColumns t.rows r hr
  · simpa using specColumns_attained t.rows
  · intro i w hw
    rw [List.getElem?_map] at hw
    have hi : i < specColumns t.rows := by
      by_contra hn
      rw [List.getElem?_eq_none (by simpa using hn)] at hw
      simp at hw
    rw [List.getElem?_range hi] at hw
    have hw2 : (specWidth t.rows i : Int) = w := Option.some.inj hw
    subst hw2
    refine ⟨rfl, ?_, ?_⟩
    · intro r hr c hc
      exact_mod_cast length_le_specWidth t.rows i r hr c hc
    · obtain ⟨r, hr, c, hc, hlen⟩ := specWidth_attained t.rows i hi
      exact ⟨r, hr, c, hc, by exact_mod_cast hlen⟩

/-- C1 (as stated, refuted): with `padRight = math.MaxInt64` the sum
`width + padRight` of the one-cell table `[["a"]]` wraps around to a negative
`wantWidth`, so `WriteTo` writes `"a\n"` with no padding, where the claim asks
for `1 + MaxInt64 - 1` spaces after the cell. And on the one-cell table `[[""]]`
with the same `padRight` the sum does not wrap, `strings.Repeat` is asked for
`MaxInt64` spaces and panics: the writer receives nothing. -/
theorem WriteTo_output_counterexample :
    (table.mk [[str "a"]] 9223372036854775807).WriteTo maxAlloc64 bufferWriter []
      = some { tbl := table.mk [[str "a"]] 9223372036854775807, sink := str "a\n",
               n := 0, err := none } ∧
    wrapInt (1 + 9223372036854775807) = -9223372036854775808 ∧
    specPad [[str "a"]] 9223372036854775807 [str "a"] 0 = 9223372036854775807 ∧
    (table.mk [[str ""]] 9223372036854775807).WriteTo maxAlloc64 bufferWriter [] = none := by
  decide

/-- C1 (amended): for every table (ragged or not) and every `padRight`, negative
included, such that for every column `width + padRight` does not overflow `int`
and is at most what the runtime can allocate, written to a writer that accepts
every write, `WriteTo` returns and the bytes the writer received are exactly the
output of the specification: for each row in table order, for each column index
below the maximum row length, the cell (empty when absent) followed by
`max(0, width + padRight - len(cell))` spaces, and then one newline. The rows
`[["a","bb"],["ccc","d"]]` with the default padding give `"a   bb \nccc d  \n"`. -/
theorem WriteTo_output {σ : Type} (maxAlloc : Nat) (W : Writer σ) (received : σ → GoString)
    (hW : Accepting W received) (t : table) (hfits : PadFits maxAlloc t) (s : σ) :
    (∃ res, t.WriteTo maxAlloc W s = some res ∧
      received res.sink = received s ++ specOutput t) ∧
    (NewTable [[str "a", str "bb"], [str "ccc", str "d"]]).WriteTo maxAlloc64 bufferWriter []
      = some { tbl := NewTable [[str "a", str "bb"], [str "ccc", str "d"]],
               sink := str "a   bb \nccc d  \n", n := 0, err := none } := by
  refine ⟨⟨_, WriteTo_eq maxAlloc t hfits W s, ?_⟩, by decide⟩
  rw [received_writeAll W received hW, specWrites_flatten]

theorem WriteTo_output_witness :
    Accepting bufferWriter id ∧
    PadFits maxAlloc64 (table.mk [[str "x"], [str "long", str "y"], []] (-2)) ∧
    ∃ res, (table.mk [[str "x"], [str "long", str "y"], []] (-2)).WriteTo maxAlloc64
        bufferWriter (str ">") = some res ∧
      id res.sink
        = id (str ">") ++ specOutput (table.mk [[str "x"], [str "long", str "y"], []] (-2)) :=
  ⟨accepting_bufferWriter, by decide,
    (WriteTo_output maxAlloc64 bufferWriter id accepting_bufferWriter
      (table.mk [[str "x"], [str "long", str "y"], []] (-2)) (by decide) (str ">")).1⟩

/-- C3 (as stated, refuted): the rows `[["ab"],["a"]]` have the same length, and
with `padRight = -1` the field written for `"ab"` has 2 bytes, not
`2 + (-1) = 1`, and the two lines `"ab\n"` and `"a\n"` differ in length. Also
with the non-negative `padRight = MaxInt64 - 1` and the rows `[["a"],["bb"]]`:
`2 + padRight` wraps around, no cell is padded, and the lines `"a\n"` and
`"bb\n"` differ in length. -/
theorem WriteTo_equal_rows_counterexample :
    (∀ r ∈ (table.mk [[str "ab"], [str "a"]] (-1)).rows,
      ∀ q ∈ (table.mk [[str "ab"], [str "a"]] (-1)).rows, r.length = q.length) ∧
    (table.mk [[str "ab"], [str "a"]] (-1)).widths = some [2] ∧
    (table.mk [[str "ab"], [str "a"]] (-1)).WriteTo maxAlloc64 logWriter []
      = some { tbl := table.mk [[str "ab"], [str "a"]] (-1),
               sink := [str "ab", str "\n", str "a", str "\n"], n := 0, err := none } ∧
    ((str "ab").length : Int) ≠ 2 + (-1) ∧
    (str "ab" ++ str "\n").length ≠ (str "a" ++ str "\n").length ∧
    (table.mk [[str "a"], [str "bb"]] 9223372036854775806).WriteTo maxAlloc64 logWriter []
      = some { tbl := table.mk [[str "a"], [str "bb"]] 9223372036854775806,
               sink := [str "a", str "\n", str "bb", str "\n"], n := 0, err := none } := by
  decide

/-- C3 (amended): for every table whose rows all have the same length and every
`padRight ≥ 0` such that for every column `width + padRight` does not overflow
`int` and is at most what the runtime can allocate, `WriteTo` returns, it writes
for each row one field per column and then the newline, the field of column `i`
has exactly (maximum cell length in column `i`) + `padRight` bytes, and all
rendered lines have the same length. -/
theorem WriteTo_equal_rows (maxAlloc : Nat) (t : table)
    (hrows : ∀ r ∈ t.rows, ∀ q ∈ t.rows, r.length = q.length) (hpad : 0 ≤ t.padRight)
    (hfits : PadFits maxAlloc t) :
    ∃ res, t.WriteTo maxAlloc logWriter [] = some res ∧
      res.sink = (t.rows.map fun r => specFields t.rows t.padRight r ++ [str "\n"]).flatten ∧
      (∀ r ∈ t.rows,
        (specFields t.rows t.padRight r).length = specColumns t.rows ∧
        ∀ i f, (specFields t.rows t.padRight r)[i]? = some f →
          (f.length : Int) = (specWidth t.rows i : Int) + t.padRight) ∧
      (∀ r ∈ t.rows, ∀ q ∈ t.rows,
        (specLine t.rows t.padRight r).length = (specLine t.rows t.padRight q).length) := by
  have _ := hrows
  refine ⟨_, WriteTo_eq maxAlloc t hfits logWriter [], ?_, ?_, ?_⟩
  · simp only [writeAll_logWriter, List.nil_append, specWrites, str_newline]
  · intro r hr
    refine ⟨specFields_length _ _ _, ?_⟩
    intro i f hf
    simp only [specFields, List.getElem?_map] at hf
    have hi : i < specColumns t.rows := by
      by_contra hn
      rw [List.getElem?_eq_none (by simpa using hn)] at hf
      simp at hf
    rw [List.getElem?_range hi] at hf
    have hf2 : specField t.rows t.padRight r i = f := Option.some.inj hf
    rw [← hf2, specField_length t.rows t.padRight hpad r hr i]
    omega
  · intro r hr q hq
    rw [specLine_length t.rows t.padRight hpad r hr, specLine_length t.rows t.padRight hpad q hq]

theorem WriteTo_equal_rows_witness :
    (∀ r ∈ (table.mk [[str "a", str "bb"], [str "ccc", str "d"]] 2).rows,
      ∀ q ∈ (table.mk [[str "a", str "bb"], [str "ccc", str "d"]] 2).rows,
        r.length = q.length) ∧
    (0 : Int) ≤ (table.mk [[str "a", str "bb"], [str "ccc", str "d"]] 2).padRight ∧
    PadFits maxAlloc64 (table.mk [[str "a", str "bb"], [str "ccc", str "d"]] 2) ∧
    ∃ res, (table.mk [[str "a", str "bb"], [str "ccc", str "d"]] 2).WriteTo maxAlloc64
      logWriter [] = some res :=
  ⟨by decide, by decide, by decide,
    (WriteTo_equal_rows maxAlloc64 (table.mk [[str "a", str "bb"], [str "ccc", str "d"]] 2)
      (by decide) (by decide) (by decide)).imp fun _ h => h.1⟩

/-- C4 (as stated, refuted): the table with the single row `["\n"]` has one row,
and `WriteTo` writes `"\n \n"`, which holds two newline bytes. And on the table
with the single row `[""]` and `padRight = math.MaxInt64`, `strings.Repeat` is
asked for `MaxInt64` spaces and panics before anything is written: no newline
byte for one row. -/
theorem WriteTo_newlines_counterexample :
    (NewTable [[str "\n"]]).rows.length = 1 ∧
    (NewTable [[str "\n"]]).WriteTo maxAlloc64 bufferWriter []
      = some { tbl := NewTable [[str "\n"]], sink := str "\n \n", n := 0, err := none } ∧
    (str "\n \n").count (10 : UInt8) = 2 ∧
    (table.mk [[str ""]] 9223372036854775807).WriteTo maxAlloc64 bufferWriter [] = none := by
  decide

/-- C4 (amended): for every table none of whose cells contains a newline byte
and any writer that accepts every write, whenever `WriteTo` returns, the number
of newline bytes it wrote equals the number of rows; and it does return when,
for every column, `width + padRight` does not overflow `int` and is at most what
the runtime can allocate. -/
theorem WriteTo_newlines {σ : Type} (maxAlloc : Nat) (W : Writer σ)
    (received : σ → GoString) (hW : Accepting W received) (t : table) (s : σ)
    (hcells : ∀ r ∈ t.rows, ∀ c ∈ r, (10 : UInt8) ∉ c) :
    (∀ res, t.WriteTo maxAlloc W s = some res →
      (received res.sink).count (10 : UInt8)
        = (received s).count (10 : UInt8) + t.rows.length) ∧
    (PadFits maxAlloc t → ∃ res, t.WriteTo maxAlloc W s = some res ∧
      (received res.sink).count (10 : UInt8)
        = (received s).count (10 : UInt8) + t.rows.length) := by
  have hret : ∀ res, t.WriteTo maxAlloc W s = some res →
      (received res.sink).count (10 : UInt8)
        = (received s).count (10 : UInt8) + t.rows.length := by
    intro res hres
    have h := WriteTo_received maxAlloc t W received hW s
    rw [hres, WriteTo_lines] at h
    cases hl : collectLines (t.rows.map (codeLine maxAlloc t.padRight
        ((List.range (specColumns t.rows)).map fun i => (specWidth t.rows i : Int)))) with
    | none => rw [hl] at h; cases h
    | some lines =>
      rw [hl] at h
      have hcount := count_collectLines maxAlloc t.padRight _ t.rows hcells lines hl
      have hrec : received res.sink = received s ++ lines.flatten := Option.some.inj h
      rw [hrec, List.count_append, hcount]
  exact ⟨hret, fun hfits => ⟨_, WriteTo_eq maxAlloc t hfits W s,
    hret _ (WriteTo_eq maxAlloc t hfits W s)⟩⟩

theorem WriteTo_newlines_witness :
    Accepting bufferWriter id ∧
    (∀ r ∈ (table.mk [[str "p"], [], [str "q", str "r"]] (-3)).rows, ∀ c ∈ r, (10 : UInt8) ∉ c) ∧
    PadFits maxAlloc64 (table.mk [[str "p"], [], [str "q", str "r"]] (-3)) ∧
    ∃ res, (table.mk [[str "p"], [], [str "q", str "r"]] (-3)).WriteTo maxAlloc64
        bufferWriter [] = some res ∧
      (id res.sink).count (10 : UInt8)
        = (id ([] : GoString)).count (10 : UInt8)
          + (table.mk [[str "p"], [], [str "q", str "r"]] (-3)).rows.length :=
  ⟨accepting_bufferWriter, by decide, by decide,
    (WriteTo_newlines maxAlloc64 bufferWriter id accepting_bufferWriter
      (table.mk [[str "p"], [], [str "q", str "r"]] (-3)) [] (by decide)).2 (by decide)⟩

/-! ## Sort -/

theorem run_asInterface (fn : SortFunc) (p : SortProg) :
    ∀ rows : List (List GoString),
      p.run sortableRows.asInterface { rows := rows, fn := fn }
        = (p.run (sliceInterface fn) rows).map fun rows => { rows := rows, fn := fn } := by
  induction p with
  | done => intro rows; rfl
  | less i j k ih =>
    intro rows
    simp only [SortProg.run, sortableRows.asInterface, sortableRows.Less, sliceInterface]
    cases hi : rows[i]? <;> cases hj : rows[j]? <;> simp only [Option.map_none']
    exact ih _ rows
  | swap i j k ih =>
    intro rows
    simp only [SortProg.run, sortableRows.asInterface, sortableRows.Swap, sliceInterface]
    cases hi : rows[i]? <;> cases hj : rows[j]? <;> simp only [Option.map_none']
    exact ih _

theorem Sort_eq (alg : Nat → SortProg) (t : table) (fn : SortFunc) :
    t.Sort alg fn
      = (sortSort alg (sliceInterface fn) t.rows).map fun rows => { t with rows := rows } := by
  have h := run_asInterface fn (alg t.rows.length) t.rows
  have hlen : sortableRows.asInterface.Len { rows := t.rows, fn := fn } = t.rows.length := rfl
  have hlen2 : (sliceInterface fn).Len t.rows = t.rows.length := rfl
  simp only [table.Sort, sortSort, hlen, hlen2, h]
  cases (alg t.rows.length).run (sliceInterface fn) t.rows <;> rfl

theorem cons_set_perm {α : Type} (x b : α) :
    ∀ (xs : List α) (j : Nat), xs[j]? = some b → (b :: xs.set j x).Perm (x :: xs) := by
  intro xs
  induction xs with
  | nil => intro j h; simp at h
  | cons y ys ih =>
    intro j h
    cases j with
    | zero =>
      simp only [List.getElem?_cons_zero, Option.some.injEq] at h
      subst h
      exact List.Perm.swap _ _ _
    | succ j =>
      simp only [List.getElem?_cons_succ] at h
      simp only [List.set_cons_succ]
      exact (List.Perm.swap _ _ _).trans (((ih j h).cons y).trans (List.Perm.swap _ _ _))

theorem set_set_perm {α : Type} :
    ∀ (xs : List α) (i j : Nat) (a b : α), xs[i]? = some a → xs[j]? = some b →
      ((xs.set i b).set j a).Perm xs := by
  intro xs
  induction xs with
  | nil => intro i j a b h; simp at h
  | cons x xs ih =>
    intro i j a b hi hj
    cases i with
    | zero =>
      simp only [List.getElem?_cons_zero, Option.some.injEq] at hi
      subst hi
      cases j with
      | zero =>
        simp only [List.getElem?_cons_zero, Option.some.injEq] at hj
        subst hj
        simp
      | succ j =>
        simp only [List.getElem?_cons_succ] at hj
        simp only [List.set_cons_zero, List.set_cons_succ]
        exact cons_set_perm x b xs j hj
    | succ i =>
      simp only [List.getElem?_cons_succ] at hi
      cases j with
      | zero =>
        simp only [List.getElem?_cons_zero, Option.some.injEq] at hj
        subst hj
        simp only [List.set_cons_zero, List.set_cons_succ]
        exact cons_set_perm x a xs i hi
      | succ j =>
        simp only [List.getElem?_cons_succ] at hj
        simp only [List.set_cons_succ]
        exact (ih i j a b hi hj).cons x

theorem run_slice_perm {α : Type} (lt : α → α → Bool) (p : SortProg) :
    ∀ xs : List α, p.inRange xs.length = true →
      ∃ ys, p.run (sliceInterface lt) xs = some ys ∧ ys.Perm xs := by
  induction p with
  | done => intro xs _; exact ⟨xs, rfl, List.Perm.refl _⟩
  | less i j k ih =>
    intro xs h
    simp only [SortProg.inRange, Bool.and_eq_true, decide_eq_true_eq] at h
    obtain ⟨⟨⟨hi, hj⟩, ht⟩, hf⟩ := h
    simp only [SortProg.run, sliceInterface, List.getElem?_eq_getElem hi,
      List.getElem?_eq_getElem hj]
    cases hb : lt xs[i] xs[j]
    · exact ih false xs hf
    · exact ih true xs ht
  | swap i j k ih =>
    intro xs h
    simp only [SortProg.inRange, Bool.and_eq_true, decide_eq_true_eq] at h
    obtain ⟨⟨hi, hj⟩, hk⟩ := h
    simp only [SortProg.run, sliceInterface, List.getElem?_eq_getElem hi,
      List.getElem?_eq_getElem hj]
    have hperm : ((xs.set i xs[j]).set j xs[i]).Perm xs :=
      set_set_perm xs i j xs[i] xs[j] (List.getElem?_eq_getElem hi) (List.getElem?_eq_getElem hj)
    obtain ⟨ys, hrun, hys⟩ := ih ((xs.set i xs[j]).set j xs[i])
      (by rw [hperm.length_eq]; exact hk)
    exact ⟨ys, hrun, hys.trans hperm⟩

theorem StrictWeakOrder.asymm {α : Type} {lt : α → α → Bool} (h : StrictWeakOrder lt)
    (a b : α) (hab : lt a b = true) : lt b a = false := by
  cases hba : lt b a
  · rfl
  · have := h.trans a b a hab hba
    rw [h.irrefl a] at this
    cases this

theorem StrictWeakOrder.not_lt_trans {α : Type} {lt : α → α → Bool} (h : StrictWeakOrder lt)
    (a b c : α) (hab : lt a b = false) (hbc : lt b c = false) : lt a c = false := by
  cases hac : lt a c
  · rfl
  · exfalso
    cases hba : lt b a
    · cases hcb : lt c b
      · have := (h.incomp_trans a b c hab hba hbc hcb).1
        rw [hac] at this
        cases this
      · have := h.trans a c b hac hcb
        rw [hab] at this
        cases this
    · have := h.trans b a c hba hac
      rw [hbc] at this
      cases this

theorem mem_insertRev {α : Type} (lt : α → α → Bool) (x : α) :
    ∀ (rp : List α) (z : α), z ∈ insertRev lt x rp → z = x ∨ z ∈ rp := by
  intro rp
  induction rp with
  | nil => intro z hz; simpa [insertRev] using hz
  | cons y rp ih =>
    intro z hz
    simp only [insertRev] at hz
    cases hxy : lt x y
    · simp only [hxy] at hz
      simpa using hz
    · simp only [hxy, if_true] at hz
      rcases List.mem_cons.mp hz with h | h
      · right; rw [h]; exact List.mem_cons_self _ _
      · rcases ih z h with h | h
        · left; exact h
        · right; exact List.mem_cons_of_mem _ h

theorem length_insertRev {α : Type} (lt : α → α → Bool) (x : α) :
    ∀ rp : List α, (insertRev lt x rp).length = rp.length + 1 := by
  intro rp
  induction rp with
  | nil => rfl
  | cons y rp ih =>
    simp only [insertRev]
    cases lt x y <;> simp [ih]

theorem pairwise_insertRev {α : Type} {lt : α → α → Bool} (h : StrictWeakOrder lt) (x : α) :
    ∀ rp : List α, rp.Pairwise (fun a b => lt a b = false) →
      (insertRev lt x rp).Pairwise fun a b => lt a b = false := by
  intro rp
  induction rp with
  | nil => intro _; simp [insertRev]
  | cons y rp ih =>
    intro hp
    obtain ⟨hy, hrp⟩ := List.pairwise_cons.mp hp
    simp only [insertRev]
    cases hxy : lt x y
    · simp only [Bool.false_eq_true, if_false]
      refine List.pairwise_cons.mpr ⟨?_, hp⟩
      intro z hz
      rcases List.mem_cons.mp hz with hz | hz
      · rw [hz]; exact hxy
      · exact h.not_lt_trans x y z hxy (hy z hz)
    · simp only [if_true]
      refine List.pairwise_cons.mpr ⟨?_, ih hrp⟩
      intro z hz
      rcases mem_insertRev lt x rp z hz with hz | hz
      · rw [hz]; exact h.asymm x y hxy
      · exact hy z hz

theorem run_insertionInner {α : Type} (lt : α → α → Bool) (x : α) (k : SortProg) :
    ∀ (rp post : List α),
      (insertionInner rp.length k).run (sliceInterface lt) (rp.reverse ++ x :: post)
        = k.run (sliceInterface lt) ((insertRev lt x rp).reverse ++ post) := by
  intro rp
  induction rp with
  | nil => intro post; rfl
  | cons y rp ih =>
    intro post
    have hy : (rp.reverse ++ y :: x :: post)[rp.length]? = some y := by
      rw [List.getElem?_append_right (by simp)]; simp
    have hx : (rp.reverse ++ y :: x :: post)[rp.length + 1]? = some x := by
      rw [List.getElem?_append_right (by simp)]; simp
    have hset : ((rp.reverse ++ y :: x :: post).set (rp.length + 1) y).set rp.length x
        = rp.reverse ++ x :: y :: post := by
      rw [List.set_append_right _ _ (by simp)]
      rw [List.set_append_right _ _ (by simp)]
      simp
    simp only [List.length_cons, insertionInner, SortProg.run, sliceInterface, List.reverse_cons,
      List.append_assoc, List.singleton_append, hx, hy, hset, insertRev]
    cases hxy : lt x y
    · simp
    · simp only [if_true, SortProg.run, hx, hy, hset]
      have := ih (y :: post)
      simp only [sliceInterface] at this
      rw [this]
      simp

theorem run_insertionOuter {α : Type} (lt : α → α → Bool) :
    ∀ (rest rp : List α),
      (insertionOuter rest.length rp.length).run (sliceInterface lt) (rp.reverse ++ rest)
        = some (rest.foldl (fun rp x => insertRev lt x rp) rp).reverse := by
  intro rest
  induction rest with
  | nil => intro rp; simp [insertionOuter, SortProg.run]
  | cons x rest ih =>
    intro rp
    simp only [List.length_cons, insertionOuter, run_insertionInner, List.foldl_cons]
    have := ih (insertRev lt x rp)
    rw [length_insertRev] at this
    exact this

theorem pairwise_foldl_insertRev {α : Type} {lt : α → α → Bool} (h : StrictWeakOrder lt) :
    ∀ (rest rp : List α), rp.Pairwise (fun a b => lt a b = false) →
      (rest.foldl (fun rp x => insertRev lt x rp) rp).Pairwise fun a b => lt a b = false := by
  intro rest
  induction rest with
  | nil => intro rp hp; exact hp
  | cons x rest ih => intro rp hp; exact ih _ (pairwise_insertRev h x rp hp)

/-- Insertion sort meets the contract of `sort.Sort`. -/
theorem insertionSort_sortsSlices : SortsSlices insertionSort := by
  intro α lt h xs
  cases xs with
  | nil => exact ⟨[], rfl, List.Pairwise.nil⟩
  | cons x rest =>
    refine ⟨(rest.foldl (fun rp x => insertRev lt x rp) [x]).reverse, ?_, ?_⟩
    · have := run_insertionOuter lt rest [x]
      simpa [sortSort, sliceInterface, insertionSort] using this
    · rw [List.pairwise_reverse]
      exact pairwise_foldl_insertRev h rest [x] (List.pairwise_singleton _ _)

theorem strictWeakOrder_fewerCells : StrictWeakOrder fewerCells := by
  refine ⟨?_, ?_, ?_⟩
  · intro a; simp [fewerCells]
  · intro a b c; simp only [fewerCells, decide_eq_true_eq]; omega
  · intro a b c; simp only [fewerCells, decide_eq_false_iff_not]; omega

/-! ## The claims about Sort -/

/-- C5: for every table and every comparator, consistent or not, and whatever
routine `sort.Sort` runs through `Len`, `Less` and `Swap` with indices below
`Len()`, `Sort` returns and the multiset of rows afterwards equals the multiset
before: no row or cell is dropped, duplicated or altered, the row count is
unchanged, and so is `padRight`. -/
theorem Sort_multiset (alg : Nat → SortProg) (t : table) (fn : SortFunc)
    (hrange : (alg t.rows.length).inRange t.rows.length = true) :
    ∃ t', t.Sort alg fn = some t' ∧
      (t'.rows : Multiset (List GoString)) = (t.rows : Multiset (List GoString)) ∧
      t'.rows.length = t.rows.length ∧
      t'.padRight = t.padRight := by
  obtain ⟨ys, hrun, hperm⟩ := run_slice_perm fn (alg t.rows.length) t.rows hrange
  refine ⟨{ t with rows := ys }, ?_, Multiset.coe_eq_coe.mpr hperm, hperm.length_eq, rfl⟩
  rw [Sort_eq, sortSort]
  show Option.map _ ((alg t.rows.length).run (sliceInterface fn) t.rows) = _
  rw [hrun]
  rfl

theorem Sort_multiset_witness :
    (insertionSort (NewTable [[str "b"], [str "a", str "c"], []]).rows.length).inRange
        (NewTable [[str "b"], [str "a", str "c"], []]).rows.length = true ∧
    (NewTable [[str "b"], [str "a", str "c"], []]).Sort insertionSort alwaysBefore
      = some (NewTable [[], [str "a", str "c"], [str "b"]]) ∧
    ∃ t', (NewTable [[str "b"], [str "a", str "c"], []]).Sort insertionSort alwaysBefore = some t' ∧
      (t'.rows : Multiset (List GoString))
        = ((NewTable [[str "b"], [str "a", str "c"], []]).rows : Multiset (List GoString)) ∧
      t'.rows.length = (NewTable [[str "b"], [str "a", str "c"], []]).rows.length ∧
      t'.padRight = (NewTable [[str "b"], [str "a", str "c"], []]).padRight :=
  ⟨by decide, by decide,
    Sort_multiset insertionSort (NewTable [[str "b"], [str "a", str "c"], []]) alwaysBefore
      (by decide)⟩

/-- C6: for every table and every comparator `fn` that is a strict weak ordering
on rows, with a `sort.Sort` that meets its documented contract, `Sort(fn)`
returns and afterwards the rows are ordered by `fn`: for all positions
`i < j`, `fn(rows[j], rows[i])` is false. -/
theorem Sort_sorted (alg : Nat → SortProg) (halg : SortsSlices alg) (t : table) (fn : SortFunc)
    (hfn : StrictWeakOrder fn) :
    ∃ t', t.Sort alg fn = some t' ∧
      ∀ (i j : Nat) (a b : List GoString), i < j →
        t'.rows[i]? = some a → t'.rows[j]? = some b → fn b a = false := by
  obtain ⟨ys, hrun, hsorted⟩ := halg (List GoString) fn hfn t.rows
  refine ⟨{ t with rows := ys }, ?_, ?_⟩
  · rw [Sort_eq, hrun]; rfl
  · intro i j a b hij ha hb
    obtain ⟨hi, hia⟩ := List.getElem?_eq_some.mp ha
    obtain ⟨hj, hjb⟩ := List.getElem?_eq_some.mp hb
    have := List.pairwise_iff_getElem.mp hsorted i j hi hj hij
    rw [← hia, ← hjb]
    exact this

theorem Sort_sorted_witness :
    SortsSlices insertionSort ∧ StrictWeakOrder fewerCells ∧
    (NewTable [[str "b", str "x"], [str "a", str "c", str "d"], [], [str "e"]]).Sort
        insertionSort fewerCells
      = some (NewTable [[], [str "e"], [str "b", str "x"], [str "a", str "c", str "d"]]) ∧
    ∃ t', (NewTable [[str "b", str "x"], [str "a", str "c", str "d"], [], [str "e"]]).Sort
        insertionSort fewerCells = some t' ∧
      ∀ (i j : Nat) (a b : List GoString), i < j →
        t'.rows[i]? = some a → t'.rows[j]? = some b → fewerCells b a = false :=
  ⟨insertionSort_sortsSlices, strictWeakOrder_fewerCells, by decide,
    Sort_sorted insertionSort insertionSort_sortsSlices
      (NewTable [[str "b", str "x"], [str "a", str "c", str "d"], [], [str "e"]]) fewerCells
      strictWeakOrder_fewerCells⟩

/-! ## The claims about the values WriteTo returns -/

/-- C7 (the code at the failing input): every write to `brokenWriter` fails with
an error, `WriteTo` of the one-row table `[["a"]]` makes two such writes, and it
returns a nil error all the same; indeed whenever `WriteTo` returns, for any
table and any writer, the error it returns is nil, and it returns whenever the
padding fits. -/
theorem WriteTo_drops_write_error :
    (∀ n p, (brokenWriter.Write n p).2.2 ≠ none) ∧
    (NewTable [[str "a"]]).WriteTo maxAlloc64 brokenWriter 0
      = some { tbl := NewTable [[str "a"]], sink := 2, n := 0, err := none } ∧
    ∀ (maxAlloc : Nat) (σ : Type) (W : Writer σ) (t : table) (s : σ),
      (∀ res, t.WriteTo maxAlloc W s = some res → res.err = none) ∧
      (PadFits maxAlloc t → ∃ res, t.WriteTo maxAlloc W s = some res ∧ res.err = none) := by
  refine ⟨?_, by decide, ?_⟩
  · intro n p; simp [brokenWriter]
  · intro maxAlloc σ W t s
    exact ⟨fun res h => (WriteTo_some maxAlloc t W s res h).2.2,
      fun hfits => ⟨_, WriteTo_eq maxAlloc t hfits W s, rfl⟩⟩

/-- C8 (as stated, refuted): `WriteTo` of the one-row table `[["a"]]` writes the
3 bytes `"a \n"` to a writer that accepts them and returns 0. -/
theorem WriteTo_returns_zero_counterexample :
    (NewTable [[str "a"]]).WriteTo maxAlloc64 bufferWriter []
      = some { tbl := NewTable [[str "a"]], sink := str "a \n", n := 0, err := none } ∧
    (str "a \n").length = 3 := by
  decide

/-- C8 (amended): for every table and every writer, the `int64` that `WriteTo`
returns is 0 whatever it wrote, a count callers cannot rely on: whenever
`WriteTo` returns the count is 0, and it returns whenever the padding fits. So
the count is the number of bytes written only when nothing is written, as for
a table with no rows. -/
theorem WriteTo_returns_zero {σ : Type} (maxAlloc : Nat) (W : Writer σ) (t : table) (s : σ) :
    (∀ res, t.WriteTo maxAlloc W s = some res → res.n = 0) ∧
    (PadFits maxAlloc t → ∃ res, t.WriteTo maxAlloc W s = some res ∧ res.n = 0) ∧
    ∃ res, (table.mk [] t.padRight).WriteTo maxAlloc bufferWriter [] = some res ∧
      res.n = ((res.sink.length : Nat) : Int) := by
  exact ⟨fun res h => (WriteTo_some maxAlloc t W s res h).2.1,
    fun hfits => ⟨_, WriteTo_eq maxAlloc t hfits W s, rfl⟩, ⟨_, rfl, rfl⟩⟩

/-- C9: for a table with zero rows and any `padRight`, `WriteTo` returns a nil
error and makes no write at all: whatever the writer, its state is the one
before the call, and a writer that logs its calls has logged none. -/
theorem WriteTo_no_rows {σ : Type} (maxAlloc : Nat) (W : Writer σ) (padRight : Int) (s : σ) :
    (table.mk [] padRight).WriteTo maxAlloc W s
      = some { tbl := table.mk [] padRight, sink := s, n := 0, err := none } ∧
    (table.mk [] padRight).WriteTo maxAlloc logWriter []
      = some { tbl := table.mk [] padRight, sink := [], n := 0, err := none } :=
  ⟨rfl, rfl⟩

/-- C10: `WriteTo` leaves the table as it was, rows and `padRight`, so two
consecutive `WriteTo` calls on the same table, each to a fresh writer that
accepts all writes, produce the same bytes: whenever the first call returns, the
table is unchanged and the second call returns with the same bytes received;
the two calls have the same outcome in every case; and both return when the
padding fits. -/
theorem WriteTo_twice {σ : Type} (maxAlloc : Nat) (W : Writer σ) (received : σ → GoString)
    (hW : Accepting W received) (t : table) (s₁ s₂ : σ)
    (h₁ : received s₁ = []) (h₂ : received s₂ = []) :
    (∀ r₁, t.WriteTo maxAlloc W s₁ = some r₁ →
      r₁.tbl = t ∧ ∃ r₂, r₁.tbl.WriteTo maxAlloc W s₂ = some r₂ ∧ r₂.tbl = t ∧
        received r₁.sink = received r₂.sink) ∧
    (t.WriteTo maxAlloc W s₁).map (fun res => received res.sink)
      = (t.WriteTo maxAlloc W s₂).map (fun res => received res.sink) ∧
    (PadFits maxAlloc t →
      ∃ r₁ r₂, t.WriteTo maxAlloc W s₁ = some r₁ ∧ r₁.tbl = t ∧
        r₁.tbl.WriteTo maxAlloc W s₂ = some r₂ ∧ r₂.tbl = t ∧
        received r₁.sink = received r₂.sink) := by
  have heq : (t.WriteTo maxAlloc W s₁).map (fun res => received res.sink)
      = (t.WriteTo maxAlloc W s₂).map (fun res => received res.sink) := by
    rw [WriteTo_received maxAlloc t W received hW s₁,
      WriteTo_received maxAlloc t W received hW s₂, h₁, h₂]
  refine ⟨?_, heq, ?_⟩
  · intro r₁ hr₁
    have ht := (WriteTo_some maxAlloc t W s₁ r₁ hr₁).1
    refine ⟨ht, ?_⟩
    rw [ht]
    rw [hr₁] at heq
    cases hr₂ : t.WriteTo maxAlloc W s₂ with
    | none => rw [hr₂] at heq; cases heq
    | some r₂ =>
      rw [hr₂] at heq
      exact ⟨r₂, rfl, (WriteTo_some maxAlloc t W s₂ r₂ hr₂).1, Option.some.inj heq⟩
  · intro hfits
    refine ⟨_, _, WriteTo_eq maxAlloc t hfits W s₁, rfl, WriteTo_eq maxAlloc t hfits W s₂,
      rfl, ?_⟩
    simp only [received_writeAll W received hW, h₁, h₂]

theorem WriteTo_twice_witness :
    Accepting bufferWriter id ∧
    PadFits maxAlloc64 (NewTable [[str "p"], [str "q", str "r"]]) ∧
    ∃ r₁ r₂, (NewTable [[str "p"], [str "q", str "r"]]).WriteTo maxAlloc64 bufferWriter []
        = some r₁ ∧
      r₁.tbl = NewTable [[str "p"], [str "q", str "r"]] ∧
      r₁.tbl.WriteTo maxAlloc64 bufferWriter [] = some r₂ ∧
      r₂.tbl = NewTable [[str "p"], [str "q", str "r"]] ∧
      id r₁.sink = id r₂.sink :=
  ⟨accepting_bufferWriter, by decide,
    (WriteTo_twice maxAlloc64 bufferWriter id accepting_bufferWriter
      (NewTable [[str "p"], [str "q", str "r"]]) [] [] rfl rfl).2.2 (by decide)⟩

/-! ## The claims about construction and padding -/

/-- C11: `NewTable(rows)` holds exactly the given rows, in the given order, with
right padding 1: it is the table that `SetPadRight(1)` leaves, so writing either
one makes the same calls with the same results, and when the padding fits a
writer that accepts every write receives the output of the specification for
padding 1. The rows `[["a","bb"],["ccc","d"]]` render as
`"a   bb \nccc d  \n"`. -/
theorem NewTable_default (maxAlloc : Nat) (rows : List (List GoString)) :
    (NewTable rows).rows = rows ∧ (NewTable rows).padRight = 1 ∧
    (NewTable rows).SetPadRight 1 = NewTable rows ∧
    (∀ (σ : Type) (W : Writer σ) (s : σ),
      ((NewTable rows).WriteTo maxAlloc W s).map (fun res => res.sink)
        = (((NewTable rows).SetPadRight 1).WriteTo maxAlloc W s).map (fun res => res.sink)) ∧
    (PadFits maxAlloc (NewTable rows) →
      ∃ res, (NewTable rows).WriteTo maxAlloc bufferWriter [] = some res ∧
        res.sink = specOutput { rows := rows, padRight := 1 }) ∧
    ((NewTable [[str "a", str "bb"], [str "ccc", str "d"]]).WriteTo maxAlloc64
        bufferWriter []).map
        (fun res => res.sink) = some (str "a   bb \nccc d  \n") := by
  refine ⟨rfl, rfl, rfl, fun _ _ _ => rfl,
    fun hfits => ⟨_, WriteTo_eq maxAlloc _ hfits _ _, ?_⟩, by decide⟩
  have h := received_writeAll bufferWriter id accepting_bufferWriter
    (specWrites (NewTable rows)) []
  simp only [id, List.nil_append] at h
  rw [h, specWrites_flatten]
  rfl

/-- C12: `SetPadRight(n)` returns the table with `padRight` equal to `n` and the
rows unchanged, so `SetPadRight(a)` followed by `SetPadRight(b)` leaves the
table that `SetPadRight(b)` alone leaves. `SetPadRight(0)` on the rows
`[["x","y"]]` renders `"xy\n"`. -/
theorem SetPadRight_spec (t : table) (n a b : Int) :
    (t.SetPadRight n).padRight = n ∧ (t.SetPadRight n).rows = t.rows ∧
    (t.SetPadRight a).SetPadRight b = t.SetPadRight b ∧
    (((NewTable [[str "x", str "y"]]).SetPadRight 0).WriteTo maxAlloc64 bufferWriter []).map
        (fun res => res.sink) = some (str "xy\n") :=
  ⟨rfl, rfl, rfl, by decide⟩

/-! ## The claim about the terminal accessor -/

/-- C13: for every argument vector with at least the program name,
`DefaultTerm` is initialised without a panic, `Args()` returns the arguments in
order without the first element (the program name), one fewer than the vector
holds, `Stdout()` and `Stderr()` return the writers the term was built with, and
each accessor leaves the term as it was. -/
theorem DefaultTerm_accessors {ω : Type} (osArgs : List GoString) (osStdout osStderr : ω)
    (hargs : 1 ≤ osArgs.length) :
    ∃ t, DefaultTerm osArgs osStdout osStderr = some t ∧
      (∃ prog, osArgs = prog :: t.Args.2) ∧
      t.Args.2 = osArgs.tail ∧
      t.Args.2.length = osArgs.length - 1 ∧
      t.Stdout.2 = osStdout ∧ t.Stderr.2 = osStderr ∧
      t.Args.1 = t ∧ t.Stdout.1 = t ∧ t.Stderr.1 = t := by
  cases osArgs with
  | nil => simp at hargs
  | cons prog rest =>
    refine ⟨{ args := rest, stdout := osStdout, stderr := osStderr }, ?_, ?_⟩
    · simp [DefaultTerm, sliceFromOne]
    · simp [term.Args, term.Stdout, term.Stderr]

theorem DefaultTerm_accessors_witness :
    1 ≤ [str "prog", str "-v", str "file"].length ∧
    DefaultTerm [str "prog", str "-v", str "file"] (1 : Nat) 2
      = some { args := [str "-v", str "file"], stdout := 1, stderr := 2 } ∧
    ∃ t, DefaultTerm [str "prog", str "-v", str "file"] (1 : Nat) 2 = some t ∧
      (∃ prog, [str "prog", str "-v", str "file"] = prog :: t.Args.2) ∧
      t.Args.2 = [str "prog", str "-v", str "file"].tail ∧
      t.Args.2.length = [str "prog", str "-v", str "file"].length - 1 ∧
      t.Stdout.2 = 1 ∧ t.Stderr.2 = 2 ∧
      t.Args.1 = t ∧ t.Stdout.1 = t ∧ t.Stderr.1 = t :=
  ⟨by decide, rfl,
    DefaultTerm_accessors [str "prog", str "-v", str "file"] (1 : Nat) 2 (by decide)⟩

/-! ## Short rows, characters and alignment -/

theorem specField_of_le (rows : List (List GoString)) (padRight : Int) (r : List GoString)
    (i : Nat) (h : r.length ≤ i) :
    specField rows padRight r i
      = List.replicate ((specWidth rows i : Int) + padRight).toNat (32 : UInt8) := by
  simp only [specField, specPad, specContent_of_le r i h, List.nil_append, List.length_nil]
  congr 1
  omega

theorem flatten_map_replicate (g : Nat → Nat) (b : UInt8) (l : List Nat) :
    (l.map fun i => List.replicate (g i) b).flatten = List.replicate (l.map g).sum b := by
  induction l with
  | nil => rfl
  | cons i l ih =>
    simp only [List.map_cons, List.flatten_cons, ih, List.sum_cons, List.replicate_add]

theorem specLine_nil (rows : List (List GoString)) (padRight : Int) :
    specLine rows padRight []
      = List.replicate ((List.range (specColumns rows)).map fun i =>
          ((specWidth rows i : Int) + padRight).toNat).sum (32 : UInt8) ++ [(10 : UInt8)] := by
  have h : specFields rows padRight []
      = (List.range (specColumns rows)).map fun i =>
          List.replicate ((specWidth rows i : Int) + padRight).toNat (32 : UInt8) := by
    simp only [specFields]
    apply List.map_congr_left
    intro i _
    exact specField_of_le rows padRight [] i (Nat.zero_le _)
  rw [specLine, h, flatten_map_replicate]

theorem getElem?_specFields (rows : List (List GoString)) (padRight : Int) (r : List GoString)
    (i : Nat) (f : GoString) (hf : (specFields rows padRight r)[i]? = some f) :
    i < specColumns rows ∧ f = specField rows padRight r i := by
  simp only [specFields, List.getElem?_map] at hf
  have hi : i < specColumns rows := by
    by_contra hn
    rw [List.getElem?_eq_none (by simpa using hn)] at hf
    simp at hf
  rw [List.getElem?_range hi] at hf
  exact ⟨hi, (Option.some.inj hf).symm⟩

theorem length_flatten_fields (rows : List (List GoString)) (padRight : Int)
    (hpad : 0 ≤ padRight) (r : List GoString) (hr : r ∈ rows) (l : List Nat) :
    (((l.map (specField rows padRight r)).flatten.length : Nat) : Int)
      = (l.map fun j => (specWidth rows j : Int) + padRight).sum := by
  induction l with
  | nil => rfl
  | cons j l ih =>
    simp only [List.map_cons, List.flatten_cons, List.length_append, List.sum_cons,
      Nat.cast_add, ih, specField_length rows padRight hpad r hr j]
    omega

/-- C14 (as stated, refuted): in the table `[["a"],[]]` with
`padRight = math.MaxInt64` the second row has no cell at column 0, whose width
is 1; `1 + MaxInt64` wraps around to a negative `wantWidth`, so `WriteTo` writes
the empty string for the missing cell, where the claim asks for `1 + MaxInt64`
spaces. -/
theorem WriteTo_short_rows_counterexample :
    (table.mk [[str "a"], []] 9223372036854775807).WriteTo maxAlloc64 logWriter []
      = some { tbl := table.mk [[str "a"], []] 9223372036854775807,
               sink := [str "a", str "\n", str "", str "\n"], n := 0, err := none } ∧
    specWidth [[str "a"], []] 0 = 1 ∧
    ((1 : Int) + 9223372036854775807).toNat = 9223372036854775808 := by
  decide

/-- C14 (amended): when for every column `width + padRight` does not overflow
`int` and is at most what the runtime can allocate, `WriteTo` returns, it writes
for each row one field per column and then the newline, and for a row shorter
than the column count the field of each missing trailing column `i` is exactly
`width_i + padRight` spaces, none when that sum is not positive. The line of an
empty row is nothing but such spaces and the newline. The rows
`[["p"],["q","r"]]` with the default padding give `"p   \nq r \n"`. -/
theorem WriteTo_short_rows (maxAlloc : Nat) (t : table) (hfits : PadFits maxAlloc t) :
    (∃ res, t.WriteTo maxAlloc logWriter [] = some res ∧
      res.sink = (t.rows.map fun r => specFields t.rows t.padRight r ++ [str "\n"]).flatten) ∧
    (∀ r ∈ t.rows, ∀ (i : Nat) (f : GoString), r.length ≤ i →
      (specFields t.rows t.padRight r)[i]? = some f →
        f = List.replicate ((specWidth t.rows i : Int) + t.padRight).toNat (32 : UInt8)) ∧
    specLine t.rows t.padRight []
      = List.replicate ((List.range (specColumns t.rows)).map fun i =>
          ((specWidth t.rows i : Int) + t.padRight).toNat).sum (32 : UInt8) ++ str "\n" ∧
    ((NewTable [[str "p"], [str "q", str "r"]]).WriteTo maxAlloc64 bufferWriter []).map
        (fun res => res.sink) = some (str "p   \nq r \n") ∧
    ((NewTable [[], [str "q", str "r"]]).WriteTo maxAlloc64 bufferWriter []).map
        (fun res => res.sink) = some (str "    \nq r \n") := by
  refine ⟨⟨_, WriteTo_eq maxAlloc t hfits logWriter [], ?_⟩, ?_, ?_, by decide, by decide⟩
  · simp only [writeAll_logWriter, List.nil_append, specWrites, str_newline]
  · intro r _ i f hle hf
    rw [(getElem?_specFields t.rows t.padRight r i f hf).2]
    exact specField_of_le t.rows t.padRight r i hle
  · rw [str_newline]
    exact specLine_nil t.rows t.padRight

theorem WriteTo_short_rows_witness :
    PadFits maxAlloc64 (table.mk [[str "p"], [], [str "q", str "rs"]] (-1)) ∧
    (table.mk [[str "p"], [], [str "q", str "rs"]] (-1)).WriteTo maxAlloc64 logWriter []
      = some { tbl := table.mk [[str "p"], [], [str "q", str "rs"]] (-1),
               sink := [str "p", str " ", str "\n", str "", str " ", str "\n",
                        str "q", str "rs", str "\n"], n := 0, err := none } ∧
    ∃ res, (table.mk [[str "p"], [], [str "q", str "rs"]] (-1)).WriteTo maxAlloc64
      logWriter [] = some res :=
  ⟨by decide, by decide,
    (WriteTo_short_rows maxAlloc64 (table.mk [[str "p"], [], [str "q", str "rs"]] (-1))
      (by decide)).1.imp fun _ h => h.1⟩

/-- C15 (the code at the failing input): the cell `"é"` is one character and two
bytes, and `widths()` returns 2 for its column, the byte count; so the rows
`["é"]` and `["ab"]` render as `"é \n"` and `"ab \n"`, two and three characters
wide. -/
theorem widths_counts_bytes :
    runeCount (str "é") = 1 ∧ (str "é").length = 2 ∧
    (NewTable [[str "é"]]).widths = some [2] ∧
    ((NewTable [[str "é"], [str "ab"]]).WriteTo maxAlloc64 bufferWriter []).map
        (fun res => res.sink) = some (str "é \nab \n") ∧
    runeCount (str "é ") = 2 ∧ runeCount (str "ab ") = 3 := by
  decide

/-- C16 (as stated, refuted): with the non-negative `padRight = MaxInt64 - 1` and
the rows `[["a"],["bb"]]`, `2 + padRight` wraps around to a negative `wantWidth`,
no cell is padded, and `WriteTo` writes `"a\nbb\n"`: two lines of different
length. -/
theorem WriteTo_aligned_counterexample :
    (0 : Int) ≤ (table.mk [[str "a"], [str "bb"]] 9223372036854775806).padRight ∧
    (table.mk [[str "a"], [str "bb"]] 9223372036854775806).WriteTo maxAlloc64 logWriter []
      = some { tbl := table.mk [[str "a"], [str "bb"]] 9223372036854775806,
               sink := [str "a", str "\n", str "bb", str "\n"], n := 0, err := none } ∧
    (str "a").length ≠ (str "bb").length := by
  decide

/-- C16 (amended): for every table, ragged or not, and every `padRight ≥ 0` such
that for every column `width + padRight` does not overflow `int` and is at most
what the runtime can allocate, `WriteTo` returns and writes for each row one
field per column and then the newline; every line has the same length without
the newline, the sum over all columns of `width_i + padRight`, and in every line
the field of column `i` starts at the same offset, the sum over the columns
`j < i` of `width_j + padRight`. -/
theorem WriteTo_aligned (maxAlloc : Nat) (t : table) (hpad : 0 ≤ t.padRight)
    (hfits : PadFits maxAlloc t) :
    ∃ res, t.WriteTo maxAlloc logWriter [] = some res ∧
      res.sink = (t.rows.map fun r => specFields t.rows t.padRight r ++ [str "\n"]).flatten ∧
      ∀ r ∈ t.rows,
        (((specFields t.rows t.padRight r).flatten.length : Nat) : Int)
          = ((List.range (specColumns t.rows)).map fun i =>
              (specWidth t.rows i : Int) + t.padRight).sum ∧
        ∀ i, i < specColumns t.rows →
          ((((specFields t.rows t.padRight r).take i).flatten.length : Nat) : Int)
            = ((List.range i).map fun j => (specWidth t.rows j : Int) + t.padRight).sum := by
  refine ⟨_, WriteTo_eq maxAlloc t hfits logWriter [], ?_, ?_⟩
  · simp only [writeAll_logWriter, List.nil_append, specWrites, str_newline]
  · intro r hr
    refine ⟨length_flatten_fields t.rows t.padRight hpad r hr _, ?_⟩
    intro i hi
    have h := length_flatten_fields t.rows t.padRight hpad r hr (List.range i)
    rw [specFields, ← List.map_take, List.take_range, min_eq_left (le_of_lt hi)]
    exact h

theorem WriteTo_aligned_witness :
    (0 : Int) ≤ (table.mk [[str "p"], [], [str "q", str "rs", str "t"]] 2).padRight ∧
    PadFits maxAlloc64 (table.mk [[str "p"], [], [str "q", str "rs", str "t"]] 2) ∧
    ((table.mk [[str "p"], [], [str "q", str "rs", str "t"]] 2).WriteTo maxAlloc64
        bufferWriter []).map
        (fun res => res.sink) = some (str "p         \n          \nq  rs  t  \n") ∧
    ∃ res, (table.mk [[str "p"], [], [str "q", str "rs", str "t"]] 2).WriteTo maxAlloc64
      logWriter [] = some res :=
  ⟨by decide, by decide, by decide,
    (WriteTo_aligned maxAlloc64 (table.mk [[str "p"], [], [str "q", str "rs", str "t"]] 2)
      (by decide) (by decide)).imp fun _ h => h.1⟩

/-! ## Reordering the rows -/

theorem specColumns_perm {rows₁ rows₂ : List (List GoString)} (h : rows₁.Perm rows₂) :
    specColumns rows₁ = specColumns rows₂ := by
  unfold specColumns
  apply List.Perm.foldr_eq' h
  intro x _ y _ z
  simp only [max_left_comm]

theorem specWidth_perm {rows₁ rows₂ : List (List GoString)} (h : rows₁.Perm rows₂) (i : Nat) :
    specWidth rows₁ i = specWidth rows₂ i := by
  unfold specWidth
  apply List.Perm.foldr_eq' h
  intro x _ y _ z
  cases x[i]? <;> cases y[i]? <;> simp only [max_left_comm]

theorem widths_perm (t₁ t₂ : table) (h : t₁.rows.Perm t₂.rows) : t₁.widths = t₂.widths := by
  rw [widths_eq, widths_eq, specColumns_perm h]
  simp only [specWidth_perm h]

theorem specLine_perm {rows₁ rows₂ : List (List GoString)} (h : rows₁.Perm rows₂)
    (padRight : Int) (r : List GoString) :
    specLine rows₁ padRight r = specLine rows₂ padRight r := by
  have hf : specField rows₁ padRight r = specField rows₂ padRight r := by
    funext i
    simp only [specField, specPad, specWidth_perm h]
  simp only [specLine, specFields, specColumns_perm h, hf]

theorem received_bufferWriter (t : table) :
    writeAll bufferWriter [] (specWrites t) = specOutput t := by
  have h := received_writeAll bufferWriter id accepting_bufferWriter (specWrites t) []
  simp only [id, List.nil_append] at h
  rw [h, specWrites_flatten]

theorem PadFits_perm (maxAlloc : Nat) (t₁ t₂ : table) (h : t₁.rows.Perm t₂.rows)
    (hp : t₁.padRight = t₂.padRight) (hfits : PadFits maxAlloc t₂) : PadFits maxAlloc t₁ := by
  intro i hi
  rw [specColumns_perm h] at hi
  rw [specWidth_perm h, hp]
  exact hfits i hi

/-! ## Absence of panics -/

theorem widthsCellsAsserted_eq (cs : List GoString) :
    ∀ (widths : List Int) (i : Nat), i ≤ widths.length →
      widthsCellsAsserted widths i cs = widthsCells widths i cs := by
  induction cs with
  | nil => intro widths i _; rfl
  | cons c cs ih =>
    intro widths i h
    unfold widthsCellsAsserted widthsCells
    rw [if_pos h]
    have hlen : i < (if i ≥ widths.length then widths ++ [0] else widths).length := by
      split
      · simp only [List.length_append, List.length_singleton]; omega
      · omega
    generalize (if i ≥ widths.length then widths ++ [0] else widths) = ws at hlen
    simp only [List.getElem?_eq_getElem hlen]
    apply ih
    split
    · simp only [List.length_set]; omega
    · omega

theorem widthsRowsAsserted_eq (rows : List (List GoString)) :
    ∀ widths : List Int, widthsRowsAsserted widths rows = widthsRows widths rows := by
  induction rows with
  | nil => intro widths; rfl
  | cons r rs ih =>
    intro widths
    simp only [widthsRowsAsserted, widthsRows,
      widthsCellsAsserted_eq r widths 0 (Nat.zero_le _)]
    cases widthsCells widths 0 r with
    | none => rfl
    | some ws => exact ih ws

theorem wrapInt_le (x : Int) : wrapInt x ≤ intMax := by
  unfold wrapInt intMax
  omega

theorem paddedCellAsserted_eq (maxAlloc : Nat) (padRight : Int) (r : List GoString) (i : Nat)
    (width : Int) :
    paddedCellAsserted maxAlloc padRight r i width = paddedCell maxAlloc padRight r i width := by
  by_cases hlt : (((if h : i < r.length then r[i] else ([] : GoString)).length : Nat) : Int)
      < wrapInt (width + padRight)
  · have hle := wrapInt_le (width + padRight)
    have hmin : intMin ≤ 0 := by decide
    have hw : wrapInt (wrapInt (width + padRight)
        - (((if h : i < r.length then r[i] else ([] : GoString)).length : Nat) : Int))
        = wrapInt (width + padRight)
          - (((if h : i < r.length then r[i] else ([] : GoString)).length : Nat) : Int) :=
      wrapInt_eq _ (by omega) (by omega)
    have hcount : 0 < wrapInt (wrapInt (width + padRight)
        - (((if h : i < r.length then r[i] else ([] : GoString)).length : Nat) : Int)) := by
      rw [hw]; omega
    simp only [paddedCellAsserted, paddedCell, hlt, if_true, stringsRepeatAsserted, hcount]
  · simp only [paddedCellAsserted, paddedCell, hlt, if_false]

theorem writeCellsAsserted_eq {σ : Type} (maxAlloc : Nat) (W : Writer σ) (padRight : Int)
    (r : List GoString) (widths : List Int) :
    ∀ (i : Nat) (s : σ),
      writeCellsAsserted maxAlloc W padRight r i widths s
        = writeCells maxAlloc W padRight r i widths s := by
  induction widths with
  | nil => intro i s; rfl
  | cons width rest ih =>
    intro i s
    simp only [writeCellsAsserted, writeCells, paddedCellAsserted_eq]
    cases paddedCell maxAlloc padRight r i width with
    | none => rfl
    | some c => exact ih _ _

theorem writeRowsAsserted_eq {σ : Type} (maxAlloc : Nat) (W : Writer σ) (padRight : Int)
    (widths : List Int) (rs : List (List GoString)) :
    ∀ s : σ,
      writeRowsAsserted maxAlloc W padRight widths rs s
        = writeRows maxAlloc W padRight widths rs s := by
  induction rs with
  | nil => intro s; rfl
  | cons r rs ih =>
    intro s
    simp only [writeRowsAsserted, writeRows, writeCellsAsserted_eq]
    cases writeCells maxAlloc W padRight r 0 widths s with
    | none => rfl
    | some s₁ => exact ih _

theorem WriteToAsserted_eq {σ : Type} (maxAlloc : Nat) (t : table) (W : Writer σ) (s : σ) :
    t.WriteToAsserted maxAlloc W s = t.WriteTo maxAlloc W s := by
  simp only [table.WriteToAsserted, table.WriteTo, table.widths, widthsRowsAsserted_eq,
    writeRowsAsserted_eq]

/-! ## The claims about reordering and panics -/

/-- C17: `widths()` gives the same result for every permutation of the rows.
So for every table and every comparator, whatever routine `sort.Sort` runs,
`Sort` leaves `padRight` and the widths unchanged, and the lines written after
it are the lines of the reordered rows under the same line function: a
permutation of the lines written before, the one `Sort` applied to the rows.
This holds of the lines as the code computes them, wrapped sums included
(`codeLine`, with `collectLines` the output unless a line panics), and, when the
padding fits, of the lines of the specification. -/
theorem Sort_lines (maxAlloc : Nat) (alg : Nat → SortProg) (t : table) (fn : SortFunc)
    (hrange : (alg t.rows.length).inRange t.rows.length = true) :
    (∀ t₂ : table, t₂.rows.Perm t.rows → t₂.widths = t.widths) ∧
    ∃ t' ws, t.Sort alg fn = some t' ∧ t'.padRight = t.padRight ∧ t'.rows.Perm t.rows ∧
      t.widths = some ws ∧ t'.widths = some ws ∧
      (t.WriteTo maxAlloc bufferWriter []).map (fun res => res.sink)
        = (collectLines (t.rows.map (codeLine maxAlloc t.padRight ws))).map List.flatten ∧
      (t'.WriteTo maxAlloc bufferWriter []).map (fun res => res.sink)
        = (collectLines (t'.rows.map (codeLine maxAlloc t.padRight ws))).map List.flatten ∧
      (t'.rows.map (codeLine maxAlloc t.padRight ws)).Perm
        (t.rows.map (codeLine maxAlloc t.padRight ws)) ∧
      (PadFits maxAlloc t →
        ∃ res res', t.WriteTo maxAlloc bufferWriter [] = some res ∧
          res.sink = (t.rows.map (specLine t.rows t.padRight)).flatten ∧
          t'.WriteTo maxAlloc bufferWriter [] = some res' ∧
          res'.sink = (t'.rows.map (specLine t.rows t.padRight)).flatten ∧
          (t'.rows.map (specLine t.rows t.padRight)).Perm
            (t.rows.map (specLine t.rows t.padRight))) := by
  refine ⟨fun t₂ h => widths_perm t₂ t h, ?_⟩
  obtain ⟨ys, hrun, hperm⟩ := run_slice_perm fn (alg t.rows.length) t.rows hrange
  have hsort : t.Sort alg fn = some { t with rows := ys } := by
    rw [Sort_eq, sortSort]
    show Option.map _ ((alg t.rows.length).run (sliceInterface fn) t.rows) = _
    rw [hrun]
    rfl
  have hw := widths_perm { t with rows := ys } t hperm
  refine ⟨{ t with rows := ys }, _, hsort, rfl, hperm, widths_eq t, ?_, ?_, ?_, hperm.map _, ?_⟩
  · rw [hw]; exact widths_eq t
  · rw [WriteTo_lines]
    simp only [List.nil_append]
  · rw [WriteTo_lines]
    have hc : specColumns ys = specColumns t.rows := specColumns_perm hperm
    simp only [List.nil_append, hc, specWidth_perm hperm]
  · intro hfits
    have hfits' : PadFits maxAlloc { t with rows := ys } :=
      PadFits_perm maxAlloc _ t hperm rfl hfits
    refine ⟨_, _, WriteTo_eq maxAlloc t hfits bufferWriter [], ?_,
      WriteTo_eq maxAlloc _ hfits' bufferWriter [], ?_, hperm.map _⟩
    · rw [received_bufferWriter, specOutput]
    · rw [received_bufferWriter, specOutput]
      have hl : specLine ys t.padRight = specLine t.rows t.padRight := by
        funext r
        exact specLine_perm hperm t.padRight r
      simp only [hl]

theorem Sort_lines_witness :
    (insertionSort (NewTable [[str "bb", str "x"], [], [str "a"]]).rows.length).inRange
        (NewTable [[str "bb", str "x"], [], [str "a"]]).rows.length = true ∧
    (NewTable [[str "bb", str "x"], [], [str "a"]]).Sort insertionSort fewerCells
      = some (NewTable [[], [str "a"], [str "bb", str "x"]]) ∧
    ((NewTable [[str "bb", str "x"], [], [str "a"]]).WriteTo maxAlloc64 bufferWriter []).map
        (fun res => res.sink) = some (str "bb x \n     \na    \n") ∧
    ((NewTable [[], [str "a"], [str "bb", str "x"]]).WriteTo maxAlloc64 bufferWriter []).map
        (fun res => res.sink) = some (str "     \na    \nbb x \n") ∧
    ∃ t', (NewTable [[str "bb", str "x"], [], [str "a"]]).Sort insertionSort fewerCells
        = some t' ∧
      t'.padRight = (NewTable [[str "bb", str "x"], [], [str "a"]]).padRight ∧
      t'.widths = (NewTable [[str "bb", str "x"], [], [str "a"]]).widths :=
  ⟨by decide, by decide, by decide, by decide,
    (Sort_lines maxAlloc64 insertionSort (NewTable [[str "bb", str "x"], [], [str "a"]])
      fewerCells (by decide)).2.imp fun _ h =>
        h.elim fun _ h => ⟨h.1, h.2.1, h.2.2.2.2.1.trans h.2.2.2.1.symm⟩⟩

/-- C18 (as stated, refuted): on the table with the single row `[""]` and
`padRight = math.MaxInt64` the sum `0 + MaxInt64` does not wrap, the cell is
shorter than `wantWidth`, and `strings.Repeat` is called with the count
`MaxInt64`, more than the runtime can allocate: `WriteTo` panics. -/
theorem WriteTo_never_panics_counterexample :
    wrapInt (0 + 9223372036854775807) = 9223372036854775807 ∧
    stringsRepeat maxAlloc64 (str " ") 9223372036854775807 = none ∧
    (table.mk [[str ""]] 9223372036854775807).WriteTo maxAlloc64 bufferWriter [] = none := by
  decide

/-- C18 (amended): `widths()` never panics, for every table (ragged rows, empty
rows, no rows): the assertion `i <= len(widths)` before the conditional append
never fails, so `widths[i]` is in bounds. In `WriteTo` every call of
`strings.Repeat` has a strictly positive count, for every table, every integer
`padRight` and every writer: `WriteTo` and its loop body with the assertions
checked do what the code does. And `WriteTo` does not panic when for every
column `width + padRight` does not overflow `int` and is at most what the
runtime can allocate. -/
theorem WriteTo_never_panics {σ : Type} (maxAlloc : Nat) (t : table) (W : Writer σ) (s : σ) :
    (∃ ws, t.widths = some ws ∧ widthsRowsAsserted [] t.rows = some ws) ∧
    t.WriteToAsserted maxAlloc W s = t.WriteTo maxAlloc W s ∧
    (∀ (padRight : Int) (r : List GoString) (i : Nat) (width : Int),
      paddedCellAsserted maxAlloc padRight r i width = paddedCell maxAlloc padRight r i width) ∧
    (PadFits maxAlloc t →
      ∃ res, t.WriteTo maxAlloc W s = some res ∧ t.WriteToAsserted maxAlloc W s = some res) := by
  refine ⟨⟨_, widths_eq t, ?_⟩, WriteToAsserted_eq maxAlloc t W s,
    paddedCellAsserted_eq maxAlloc, ?_⟩
  · rw [widthsRowsAsserted_eq]
    exact widths_eq t
  · intro hfits
    refine ⟨_, WriteTo_eq maxAlloc t hfits W s, ?_⟩
    rw [WriteToAsserted_eq]
    exact WriteTo_eq maxAlloc t hfits W s

end Term
